import Mathlib

/-!
# git-commit-generator: a verification development of `main.go`

A shallow embedding of the core of `src/main.go`:

* `splitDiff` (per-file chunking of a diff),
* the tagged-output parse loop shared by `processChunk` and `getFinalCommitMessage`,
* the retry loop of `generateAndProcessFinalMessage`,
* `displayOptions` / `processChoice` (the interaction controller).

Go strings are modelled as `List Char` (valid UTF-8 text); byte lengths are UTF-8 sizes.
External collaborators (the `ollama` subprocess, `git commit`, the editor, standard input)
are oracles held in a `World`; everything the program does to the outside is recorded as a
list of `Event`s.
-/

namespace GitCommitGenerator

/-! ## Strings -/

/-- Number of bytes of a text in UTF-8, what Go's `len(s)` and `Builder.Len()` return. -/
def byteLen (s : List Char) : Nat := (s.map Char.utf8Size).sum

/-- Go `strings.Contains(s, substr)`: `substr` occurs somewhere inside `s`. -/
def Contains (s substr : List Char) : Bool := s.tails.any (fun t => substr.isPrefixOf t)

/-- Go `unicode.IsSpace`: the Unicode White_Space code points. -/
def isSpace (c : Char) : Bool :=
  c = '\t' || c = '\n' || c.toNat = 0x0B || c.toNat = 0x0C || c = '\r' || c = ' ' ||
  c.toNat = 0x85 || c.toNat = 0xA0 || c.toNat = 0x1680 ||
  (0x2000 ≤ c.toNat && c.toNat ≤ 0x200A) ||
  c.toNat = 0x2028 || c.toNat = 0x2029 || c.toNat = 0x202F || c.toNat = 0x205F ||
  c.toNat = 0x3000

/-- Go `strings.TrimSpace`: the text without its leading and trailing white space. -/
def TrimSpace (s : List Char) : List Char := ((s.dropWhile isSpace).reverse.dropWhile isSpace).reverse

/-! ## `bufio.Scanner` with the default `ScanLines` split function -/

/-- The lines of a text: the pieces between line feeds. A final piece that no line feed
terminates is a line as well; the empty text has no line. -/
def textLines : List Char → List (List Char)
  | [] => []
  | c :: rest =>
    if c = '\n' then [] :: textLines rest
    else
      match textLines rest with
      | [] => [[c]]
      | l :: ls => (c :: l) :: ls

/-- Go `bufio.MaxScanTokenSize`, the size of the largest buffer a `Scanner` allocates. -/
def MaxScanTokenSize : Nat := 64 * 1024

/-- The helper `dropCR` of `bufio.ScanLines`: one trailing carriage return is removed. -/
def dropCR (data : List Char) : List Char :=
  if data.getLast? = some '\r' then data.dropLast else data

/-- The strings returned by `scanner.Text()` over the successful calls of `scanner.Scan()`
for `bufio.NewScanner(r)` reading `data`: each line without its terminator (`\n` or `\r\n`),
in order. A line that does not fit in the scanner's buffer together with its line feed
(`MaxScanTokenSize` bytes or more of content) makes `Scan` fail with `ErrTooLong`; the
loop `for scanner.Scan()` ends there and the rest of the input is never seen. -/
def scanLines (data : List Char) : List (List Char) :=
  ((textLines data).takeWhile (fun l => decide (byteLen l < MaxScanTokenSize))).map dropCR

/-! ## `splitDiff` (main.go 214-239) -/

/-- The compiled pattern `^diff --git` applied with `MatchString`: the line starts with
`diff --git` (the scanner's lines hold no line feed, so `^` is the start of the line). -/
def diffGitPattern_MatchString (line : List Char) : Bool :=
  "diff --git".toList.isPrefixOf line

/-- The body of `for scanner.Scan()` in `splitDiff`, over the scanned lines, on the state
`(chunks, currentChunk)`. -/
def splitDiffLoop : List (List Char) → List (List Char) → List Char →
    List (List Char) × List Char
  | [], chunks, currentChunk => (chunks, currentChunk)
  | line :: rest, chunks, currentChunk =>
    let flushed : List (List Char) × List Char :=
      if diffGitPattern_MatchString line && decide (byteLen currentChunk > 0) then
        (chunks ++ [currentChunk], [])
      else (chunks, currentChunk)
    splitDiffLoop rest flushed.1 ((flushed.2 ++ line) ++ ['\n'])

/-- The function `splitDiff`: the loop, then the flush of a non-empty last chunk. -/
def splitDiff (diff : List Char) : List (List Char) :=
  let r := splitDiffLoop (scanLines diff) [] []
  if byteLen r.2 > 0 then r.1 ++ [r.2] else r.1

/-- The number of lines of a text that start with `diff --git`. -/
def markerLineCount (diff : List Char) : Nat :=
  (textLines diff).countP diffGitPattern_MatchString

/-! ## The tagged-output parse loop (main.go 256-284 and 379-407) -/

/-- The values taken by the string variable `section` of the parse loop:
`"normal"`, `"reasoning"`, `"commit"`. -/
inductive Section
  | normal
  | reasoning
  | commit
  deriving DecidableEq

/-- The state of the parse loop: `section`, the two builders (`chunkReasoning` /
`reasoningOutput` and `chunkMessage` / `commitMessage`), and the lines handed to
`typeEffect` so far. -/
structure ParseState where
  sect : Section
  reasoning : List Char
  message : List Char
  typed : List (List Char)
  deriving DecidableEq

/-- The state before the first line: `section := "normal"` and empty builders. -/
def ParseState.init : ParseState :=
  { sect := Section.normal, reasoning := [], message := [], typed := [] }

/-- The start marker `"<reasoning>"` looked for in each line. -/
def reasoningStart : List Char := "<reasoning>".toList

/-- The end marker `"</reasoning>"` looked for in each line. -/
def reasoningEnd : List Char := "</reasoning>".toList

/-- One iteration of `for scanner.Scan()` in `processChunk` and `getFinalCommitMessage`
(the two loops are the same text up to the names of the builders). -/
def parseStep (onlyMessage : Bool) (st : ParseState) (line : List Char) : ParseState :=
  if Contains line reasoningStart then
    { st with sect := Section.reasoning }
  else if Contains line reasoningEnd then
    { st with sect := Section.commit }
  else
    match st.sect with
    | Section.reasoning =>
      { st with
        typed := if !onlyMessage then st.typed ++ [line] else st.typed
        reasoning := (st.reasoning ++ line) ++ ['\n'] }
    | Section.commit => { st with message := (st.message ++ line) ++ ['\n'] }
    | Section.normal => st

/-- The parse loop over the lines of the subprocess output, from a given state. -/
def parseLoop (onlyMessage : Bool) (lines : List (List Char)) (st : ParseState) : ParseState :=
  lines.foldl (parseStep onlyMessage) st

/-- The value of `section` after the loop has read the given lines. -/
def sectionAfter (onlyMessage : Bool) (lines : List (List Char)) : Section :=
  (parseLoop onlyMessage lines ParseState.init).sect

/-- The successive values of `section`: before the first line and after each line. -/
def sectionTrace (onlyMessage : Bool) (lines : List (List Char)) : List Section :=
  lines.inits.map (sectionAfter onlyMessage)

/-- The message the functions return after the loop: `strings.TrimSpace` of the message
builder. -/
def parsedMessage (onlyMessage : Bool) (lines : List (List Char)) : List Char :=
  TrimSpace (parseLoop onlyMessage lines ParseState.init).message

/-- The reasoning text the functions return after the loop: the builder as it is. -/
def parsedReasoning (onlyMessage : Bool) (lines : List (List Char)) : List Char :=
  (parseLoop onlyMessage lines ParseState.init).reasoning

/-! ## The outside world -/

/-- The struct `Flags`. -/
structure Flags where
  OnlyMessage : Bool
  Verbose : Bool
  Help : Bool
  Update : Bool
  deriving DecidableEq

/-- What starting `ollama run` with a pipe on its standard output gives: an error of
`cmd.StdoutPipe()`, an error of `cmd.Start()`, or the text the process writes. -/
inductive PipeResult
  | pipeError (err : List Char)
  | startError (err : List Char)
  | output (stdout : List Char)
  deriving DecidableEq

/-- What the steps of the `e` branch of `processChoice` give: the first step that fails
with its error text, or the contents of the temporary file after the editor has run. -/
inductive EditResult
  | tempFileError (err : List Char)
  | writeError (err : List Char)
  | editorError (err : List Char)
  | readError (err : List Char)
  | edited (contents : List Char)
  deriving DecidableEq

/-- What the program does to the outside, in order. `getFinalCommitMessage`,
`displayOptions` and `processChoice` record each of their calls with its arguments. -/
inductive Event
  | print (text : List Char)
  | typeEffect (text color indent : List Char)
  | sleep (seconds : Nat)
  | getFinalCommitMessage (finalInput : List Char) (onlyMessage : Bool)
  | displayOptions (ignoreOption : List Char)
  | processChoice (choice ignoreOption : List Char)
  | gitCommit (message : List Char)
  | runEditor (editor contents : List Char)
  | removeTempFile
  | exit (code : Nat)
  deriving DecidableEq

/-- The collaborators as oracles. `stdin` holds what the successive calls of
`reader.ReadString('\n')` return (lines typed at a terminal); once it is exhausted the
input is at its end. `ollama`, `gitCommit` and `editor` are the outcomes of the successive
runs of `ollama run`, `git commit` (true: exit status 0) and of the edit steps; `EDITOR` is
the environment variable. -/
structure World where
  stdin : List (List Char)
  ollama : Nat → PipeResult
  gitCommit : Nat → Bool
  editor : Nat → EditResult
  EDITOR : List Char

/-- How a call ended: it returned to its caller, it ended the process with `os.Exit`, or
the model ran out of fuel. -/
inductive Status
  | returned
  | exited (code : Nat)
  | outOfFuel
  deriving DecidableEq

/-- The events of a call and how it ended. -/
structure Run where
  events : List Event
  status : Status
  deriving DecidableEq

/-- The process exit status after `main` has called `generateAndProcessFinalMessage` as
its last statement: the code given to `os.Exit`, or 0 when the call returned. -/
def exitStatus : Status → Option Nat
  | Status.returned => some 0
  | Status.exited code => some code
  | Status.outOfFuel => none

/-- Go `fmt.Println(s)`. -/
def Println (s : List Char) : Event := Event.print (s ++ ['\n'])

/-- `reader.ReadString('\n')` on standard input, the error ignored: the next line, or the
empty string at the end of input. -/
def readString (w : World) : List Char × World :=
  match w.stdin with
  | [] => ([], w)
  | l :: rest => (l, { w with stdin := rest })

/-- The function `requestContext` (main.go 207-212). -/
def requestContext (w : World) : List Event × List Char × World :=
  let r := readString w
  ([Println "\x1b[1;33mProvide additional context for the commit (optional, press Enter to skip):\x1b[0m".toList],
    TrimSpace r.1, r.2)

/-- The outcome of one call of `getFinalCommitMessage` or `processChunk`. -/
structure Generated where
  events : List Event
  reasoning : List Char
  message : List Char
  world : World

/-- The common body of `processChunk` and `getFinalCommitMessage`, which differ in the
model name only: `exec.Command("ollama", "run", model, input)`, pipe, start, parse loop,
trimmed message. What the subprocess writes is the oracle's answer. -/
def runOllama (_model _input : List Char) (onlyMessage : Bool) (w : World) : Generated :=
  let w1 : World := { w with ollama := fun n => w.ollama (n + 1) }
  match w.ollama 0 with
  | PipeResult.pipeError err =>
    { events := [Event.print ("\x1b[1;31mError creating pipe: ".toList ++ err ++ "\x1b[0m\n".toList)],
      reasoning := [], message := [], world := w1 }
  | PipeResult.startError err =>
    { events := [Event.print ("\x1b[1;31mError starting command: ".toList ++ err ++ "\x1b[0m\n".toList)],
      reasoning := [], message := [], world := w1 }
  | PipeResult.output stdout =>
    let st := parseLoop onlyMessage (scanLines stdout) ParseState.init
    { events := st.typed.map (fun line => Event.typeEffect line [] "  ".toList),
      reasoning := st.reasoning, message := TrimSpace st.message, world := w1 }

/-- The function `processChunk` (main.go 242-289). -/
def processChunk (chunk : List Char) (onlyMessage : Bool) (w : World) : Generated :=
  runOllama "tavernari/git-commit-message:reasoning".toList chunk onlyMessage w

/-- The function `getFinalCommitMessage` (main.go 365-412); its call is recorded. -/
def getFinalCommitMessage (finalInput : List Char) (onlyMessage : Bool) (w : World) :
    Generated :=
  let r := runOllama "tavernari/git-commit-message:merge_commits".toList finalInput onlyMessage w
  { r with events := Event.getFinalCommitMessage finalInput onlyMessage :: r.events }

/-- The function `displayOptions` (main.go 415-435): the menu without the options whose
letter occurs in `ignoreOption`, then the trimmed line the user types. -/
def displayOptions (ignoreOption : List Char) (w : World) : List Event × List Char × World :=
  let r := readString w
  ([Event.displayOptions ignoreOption, Println "\n\x1b[1;34mOptions:\x1b[0m".toList] ++
    (if !Contains ignoreOption "c".toList then
      [Println "  \x1b[1m(c)\x1b[0m Commit with this message".toList] else []) ++
    (if !Contains ignoreOption "e".toList then
      [Println "  \x1b[1m(e)\x1b[0m Edit this message".toList] else []) ++
    (if !Contains ignoreOption "g".toList then
      [Println "  \x1b[1m(g)\x1b[0m Generate again with some context".toList] else []) ++
    (if !Contains ignoreOption "d".toList then
      [Println "  \x1b[1m(d)\x1b[0m Discard".toList] else []) ++
    [Event.print "\x1b[1;33mChoose: \x1b[0m".toList],
    TrimSpace r.1, r.2)

/-! ## The retry loop of `generateAndProcessFinalMessage` (main.go 308-332) -/

/-- How the retry loop ends: its condition became false with the given
`finalCommitMessage`, or the `else` branch at `retryCount == maxRetries` was taken (the
branch that sets `ignoreOption = "c, e"`, asks the user and returns). -/
inductive LoopExit
  | done (finalCommitMessage : List Char)
  | exhausted
  | outOfFuel
  deriving DecidableEq

/-- The loop `for finalCommitMessage == "" && retryCount < maxRetries`, on the state
`(finalCommitMessage, retryCount)`; one unit of fuel per test of the condition. -/
def retryLoop (finalInput : List Char) (flags : Flags) (maxRetries : Nat) :
    Nat → List Char → Nat → World → List Event × LoopExit × World
  | 0, _, _, w => ([], LoopExit.outOfFuel, w)
  | fuel + 1, finalCommitMessage, retryCount, w =>
    if finalCommitMessage = [] ∧ retryCount < maxRetries then
      let g := getFinalCommitMessage finalInput flags.OnlyMessage w
      let finalCommitMessage := g.message
      if finalCommitMessage = [] then
        let retryCount := retryCount + 1
        if retryCount < maxRetries then
          let r := retryLoop finalInput flags maxRetries fuel finalCommitMessage retryCount g.world
          (g.events ++
            (if flags.Verbose then
              [Println "\x1b[1;31m❌ Failed to generate a commit message. Retrying...\x1b[0m".toList]
             else []) ++ [Event.sleep 1] ++ r.1, r.2)
        else
          (g.events, LoopExit.exhausted, g.world)
      else
        let r := retryLoop finalInput flags maxRetries fuel finalCommitMessage retryCount g.world
        (g.events ++ r.1, r.2)
    else ([], LoopExit.done finalCommitMessage, w)

/-- The prompt built by `fmt.Sprintf` at the start of `generateAndProcessFinalMessage`. -/
def finalInputOf (finalMicroMessages globalContext : List Char) : List Char :=
  "\n### Commits:\n".toList ++ finalMicroMessages ++
    "\n\n### Extra user input context:\n".toList ++ globalContext ++ "\n".toList

/-- The verbose panel printed after the loop. -/
def verbosePanel (finalInput finalCommitMessage : List Char) : List Event :=
  [Println "\x1b[1;36mFinal Input to Ollama:\x1b[0m".toList, Println finalInput,
   Println "\x1b[1;34m----------------\x1b[0m".toList,
   Println "\x1b[1;36mGenerated Final Commit Message:\x1b[0m".toList,
   Println finalCommitMessage,
   Println "\x1b[1;34m----------------\x1b[0m".toList]

/-- The header and the typed-out message shown before the options (main.go 349-357). -/
def proposedPanel (finalCommitMessage : List Char) : List Event :=
  [Println "\n\x1b[1;34m──────────────────────────────────────────────────────────────\x1b[0m".toList,
   Println "\x1b[1;34mFinal Commit Message\x1b[0m".toList,
   Println "\x1b[1;34m──────────────────────────────────────────────────────────────\x1b[0m".toList] ++
  (scanLines finalCommitMessage).map (fun line => Event.typeEffect line [] [])

/-- The line printed by every rejection in `processChoice`. -/
def invalidOption : Event := Println "\x1b[1;31mInvalid option. Aborting.\x1b[0m".toList

/-! ## `generateAndProcessFinalMessage` and `processChoice` (main.go 292-362, 438-533)

The two functions call each other; `fuel` bounds the depth of that call chain. -/

mutual

/-- The function `generateAndProcessFinalMessage`. -/
def generateAndProcessFinalMessage :
    Nat → List Char → List Char → Flags → List Char → World → Run
  | 0, _, _, _, _, _ => { events := [], status := Status.outOfFuel }
  | fuel + 1, finalMicroMessages, globalContext, flags, ignoreOption, w =>
    let finalInput := finalInputOf finalMicroMessages globalContext
    let head : List Event :=
      (if flags.Verbose then
        [Println "\x1b[1;36mFinal Input to Ollama:\x1b[0m".toList, Println finalInput]
       else []) ++ [Println []]
    let maxRetries := 10
    let loop := retryLoop finalInput flags maxRetries (maxRetries + 1) [] 0 w
    match loop.2.1 with
    | LoopExit.outOfFuel => { events := head ++ loop.1, status := Status.outOfFuel }
    | LoopExit.exhausted =>
      let finalCommitMessage : List Char := []
      let ignoreOption := "c, e".toList
      let d := displayOptions ignoreOption loop.2.2
      let r := processChoice fuel d.2.1 finalCommitMessage flags ignoreOption
        finalMicroMessages globalContext d.2.2
      { events := head ++ loop.1 ++
          [Println "\x1b[1;31m❌ Failed to generate a commit message.\x1b[0m".toList] ++
          d.1 ++ r.events,
        status := r.status }
    | LoopExit.done finalCommitMessage =>
      let verbose : List Event :=
        if flags.Verbose then verbosePanel finalInput finalCommitMessage else []
      if flags.OnlyMessage then
        { events := head ++ loop.1 ++ verbose ++ [Println finalCommitMessage],
          status := Status.returned }
      else
        let d := displayOptions ignoreOption loop.2.2
        let r := processChoice fuel d.2.1 finalCommitMessage flags ignoreOption
          finalMicroMessages globalContext d.2.2
        { events := head ++ loop.1 ++ verbose ++ proposedPanel finalCommitMessage ++
            d.1 ++ r.events,
          status := r.status }

/-- The function `processChoice`. -/
def processChoice :
    Nat → List Char → List Char → Flags → List Char → List Char → List Char → World → Run
  | 0, _, _, _, _, _, _, _ => { events := [], status := Status.outOfFuel }
  | fuel + 1, choice, finalCommitMessage, flags, ignoreOption, finalMicroMessages,
      globalContext, w =>
    let call := Event.processChoice choice ignoreOption
    if choice = "c".toList then
      if !Contains ignoreOption "c".toList then
        let w1 : World := { w with gitCommit := fun n => w.gitCommit (n + 1) }
        let pre : List Event :=
          [call, Println "\x1b[1;33mCommitting with the following message:\x1b[0m".toList,
           Println finalCommitMessage, Event.gitCommit finalCommitMessage]
        if w.gitCommit 0 then
          { events := pre ++ [Println "\x1b[1;32m✅ Commit created successfully!\x1b[0m".toList],
            status := Status.returned }
        else
          let d := displayOptions ignoreOption w1
          let r := processChoice fuel d.2.1 finalCommitMessage flags ignoreOption
            finalMicroMessages globalContext d.2.2
          { events := pre ++
              [Println "\x1b[1;31m❌ Commit failed. Please check the errors above.\x1b[0m".toList] ++
              d.1 ++ r.events,
            status := r.status }
      else
        { events := [call, invalidOption, Event.exit 1], status := Status.exited 1 }
    else if choice = "e".toList then
      if !Contains ignoreOption "e".toList then
        let w1 : World := { w with editor := fun n => w.editor (n + 1) }
        let pre : List Event :=
          [call, Println "\x1b[1;33mOpening editor to edit the commit message...\x1b[0m".toList]
        let editor := if w.EDITOR = [] then "nano".toList else w.EDITOR
        match w.editor 0 with
        | EditResult.tempFileError err =>
          { events := pre ++
              [Event.print ("\x1b[1;31mError creating temp file: ".toList ++ err ++ "\x1b[0m\n".toList)],
            status := Status.returned }
        | EditResult.writeError err =>
          { events := pre ++
              [Event.print ("\x1b[1;31mError writing to temp file: ".toList ++ err ++ "\x1b[0m\n".toList),
               Event.removeTempFile],
            status := Status.returned }
        | EditResult.editorError err =>
          { events := pre ++
              [Event.runEditor editor finalCommitMessage,
               Event.print ("\x1b[1;31mError with editor: ".toList ++ err ++ "\x1b[0m\n".toList),
               Event.removeTempFile],
            status := Status.returned }
        | EditResult.readError err =>
          { events := pre ++
              [Event.runEditor editor finalCommitMessage,
               Event.print ("\x1b[1;31mError reading edited message: ".toList ++ err ++ "\x1b[0m\n".toList),
               Event.removeTempFile],
            status := Status.returned }
        | EditResult.edited contents =>
          let updatedMessage := contents
          let d := displayOptions ignoreOption w1
          let r := processChoice fuel d.2.1 updatedMessage flags ignoreOption
            finalMicroMessages globalContext d.2.2
          { events := pre ++
              [Event.runEditor editor finalCommitMessage,
               Println "\n\x1b[1;34m──────────────────────────────────────────────────────────────\x1b[0m".toList,
               Println "\x1b[1;34mUpdated Commit Message\x1b[0m".toList,
               Println "\x1b[1;34m──────────────────────────────────────────────────────────────\x1b[0m".toList,
               Println updatedMessage] ++ d.1 ++ r.events ++
              (if r.status = Status.returned then [Event.removeTempFile] else []),
            status := r.status }
      else
        { events := [call, invalidOption, Event.exit 1], status := Status.exited 1 }
    else if choice = "g".toList then
      if !Contains ignoreOption "g".toList then
        let c := requestContext w
        let newContext := c.2.1
        let r := generateAndProcessFinalMessage fuel finalMicroMessages newContext flags
          ignoreOption c.2.2
        { events :=
            [call, Println "\x1b[1;33mGenerating again with some context...\x1b[0m".toList] ++
              c.1 ++ r.events,
          status := r.status }
      else
        { events := [call, invalidOption, Event.exit 1], status := Status.exited 1 }
    else if choice = "d".toList then
      { events := [call, Println "\x1b[1;31m❌ Commit discarded.\x1b[0m".toList],
        status := Status.returned }
    else
      { events := [call, invalidOption], status := Status.returned }

end

/-- The value of `ignoreOption` that `main` passes to `generateAndProcessFinalMessage`
(main.go 115-120). -/
def mainIgnoreOption (flags : Flags) : List Char :=
  if flags.OnlyMessage then "c".toList else []

/-- The message that the call number `j` (from 0) of `getFinalCommitMessage` returns, counted
from the world `w`. -/
def attemptMessage (onlyMessage : Bool) (w : World) (j : Nat) : List Char :=
  (getFinalCommitMessage [] onlyMessage { w with ollama := fun n => w.ollama (n + j) }).message

/-- The event is a call of `getFinalCommitMessage`. -/
def isAttempt : Event → Bool
  | Event.getFinalCommitMessage _ _ => true
  | _ => false

/-- The event is a call of the interaction controller (`displayOptions` or `processChoice`). -/
def isControllerCall : Event → Bool
  | Event.displayOptions _ => true
  | Event.processChoice _ _ => true
  | _ => false

/-- The event is a run of `git commit`. -/
def isGitCommit : Event → Bool
  | Event.gitCommit _ => true
  | _ => false

/-- The event is neither a run of `git commit` nor a controller call whose exclusion string
differs from the given one. -/
def keepsExclusion (ignoreOption : List Char) : Event → Bool
  | Event.displayOptions ign => decide (ign = ignoreOption)
  | Event.processChoice _ ign => decide (ign = ignoreOption)
  | Event.gitCommit _ => false
  | _ => true

/-! ## Sample inputs -/

/-- A diff of two files, as `git diff --staged` prints it. -/
def sampleDiff : List Char :=
  "diff --git a/x b/x\n+one\ndiff --git a/y b/y\n-two\n".toList

/-- A diff of two files with a line before the first `diff --git` line. -/
def sampleDiffWithPreamble : List Char :=
  "x\ndiff --git a b\ny\ndiff --git c d\n".toList

/-- A world in which the first two runs of `ollama` print nothing and the later ones print
a reasoning block followed by a message. -/
def worldThirdAttempt : World :=
  { stdin := []
    ollama := fun n =>
      if n < 2 then PipeResult.output []
      else PipeResult.output "<reasoning>\nwhy\n</reasoning>\nfix: typo\n".toList
    gitCommit := fun _ => true
    editor := fun _ => EditResult.edited []
    EDITOR := [] }

/-- A world in which `ollama` never prints anything and the user types nothing. -/
def worldSilent : World :=
  { stdin := []
    ollama := fun _ => PipeResult.output []
    gitCommit := fun _ => true
    editor := fun _ => EditResult.edited []
    EDITOR := [] }

/-- A world in which `ollama` never prints anything and the user types `e`. -/
def worldSilentEdit : World := { worldSilent with stdin := ["e\n".toList] }

/-- A world in which the first ten runs of `ollama` print nothing and the later ones print
a message; the user asks to generate again, gives a context, then types `c`. -/
def worldRegenerate : World :=
  { stdin := ["g\n".toList, "shorter\n".toList, "c\n".toList]
    ollama := fun n =>
      if n < 10 then PipeResult.output []
      else PipeResult.output "<reasoning>\nwhy\n</reasoning>\nfix: typo\n".toList
    gitCommit := fun _ => true
    editor := fun _ => EditResult.edited []
    EDITOR := [] }

/-- The flags of a plain interactive run. -/
def flagsInteractive : Flags :=
  { OnlyMessage := false, Verbose := false, Help := false, Update := false }

/-- The flags of a run with `--only-message`. -/
def flagsOnlyMessage : Flags :=
  { OnlyMessage := true, Verbose := false, Help := false, Update := false }

/-! ## Lemmas on strings and lines -/

theorem byteLen_nil : byteLen [] = 0 := rfl

theorem byteLen_append (a b : List Char) : byteLen (a ++ b) = byteLen a + byteLen b := by
  simp [byteLen]

theorem byteLen_pos_iff (s : List Char) : 0 < byteLen s ↔ s ≠ [] := by
  cases s with
  | nil => simp [byteLen]
  | cons c t =>
    have := Char.utf8Size_pos c
    simp [byteLen]
    omega

theorem textLines_eq_nil_iff (d : List Char) : textLines d = [] ↔ d = [] := by
  cases d with
  | nil => simp [textLines]
  | cons c rest =>
    simp only [textLines]
    split
    · simp
    · split <;> simp

/-- Writing every line back with a line feed rebuilds the text, up to a line feed added
after an unterminated last line. -/
theorem textLines_flatten (d : List Char) :
    ((textLines d).map (fun l => l ++ ['\n'])).flatten =
      d ++ (if d = [] ∨ d.getLast? = some '\n' then [] else ['\n']) := by
  induction d with
  | nil => simp [textLines]
  | cons c rest ih =>
    simp only [textLines]
    by_cases hc : c = '\n'
    · subst hc
      simp only [if_true, List.map_cons, List.flatten_cons, List.nil_append, ih]
      cases rest with
      | nil => simp
      | cons r rs => simp [List.getLast?_cons_cons]
    · simp only [hc, if_false]
      cases hrest : textLines rest with
      | nil =>
        have hnil : rest = [] := (textLines_eq_nil_iff rest).1 hrest
        subst hnil
        simp [hc]
      | cons l ls =>
        have hne : rest ≠ [] := by
          intro h
          rw [h] at hrest
          simp [textLines] at hrest
        rw [hrest] at ih
        simp only [List.map_cons, List.flatten_cons] at ih
        simp only [List.map_cons, List.flatten_cons, List.cons_append]
        rw [ih]
        cases rest with
        | nil => exact absurd rfl hne
        | cons r rs => simp [List.getLast?_cons_cons]

theorem dropCR_eq_self (l : List Char) (h : l.getLast? ≠ some '\r') : dropCR l = l := by
  simp [dropCR, h]

/-- The scanner returns the lines of the text unchanged when none is too long for its
buffer and none ends with a carriage return. -/
theorem scanLines_eq_textLines (d : List Char)
    (hcr : ∀ l ∈ textLines d, l.getLast? ≠ some '\r')
    (hlen : ∀ l ∈ textLines d, byteLen l < MaxScanTokenSize) :
    scanLines d = textLines d := by
  unfold scanLines
  have h1 : (textLines d).takeWhile (fun l => decide (byteLen l < MaxScanTokenSize)) =
      textLines d := by
    rw [List.takeWhile_eq_self_iff]
    intro l hl
    simpa using hlen l hl
  rw [h1]
  conv_rhs => rw [← List.map_id (textLines d)]
  apply List.map_congr_left
  intro l hl
  simpa using dropCR_eq_self l (hcr l hl)

/-! ## Lemmas on `splitDiff` -/

/-- The loop of `splitDiff` loses nothing: chunks and accumulator together hold what they
held before, followed by every scanned line with a line feed. -/
theorem splitDiffLoop_flatten (lines : List (List Char)) :
    ∀ (chunks : List (List Char)) (cur : List Char),
      (splitDiffLoop lines chunks cur).1.flatten ++ (splitDiffLoop lines chunks cur).2 =
        chunks.flatten ++ cur ++ (lines.map (fun l => l ++ ['\n'])).flatten := by
  induction lines with
  | nil => intro chunks cur; simp [splitDiffLoop]
  | cons line rest ih =>
    intro chunks cur
    simp only [splitDiffLoop]
    rw [ih]
    split <;> simp

theorem splitDiff_flatten (d : List Char) :
    (splitDiff d).flatten = ((scanLines d).map (fun l => l ++ ['\n'])).flatten := by
  have h := splitDiffLoop_flatten (scanLines d) [] []
  simp only [List.flatten_nil, List.append_nil, List.nil_append] at h
  unfold splitDiff
  simp only
  split
  · simpa using h
  · rename_i hz
    have hnil : (splitDiffLoop (scanLines d) [] []).2 = [] := by
      by_contra hne
      exact hz ((byteLen_pos_iff _).2 hne)
    rw [hnil] at h
    simpa using h

theorem dropCR_match (l : List Char) :
    diffGitPattern_MatchString (dropCR l) = diffGitPattern_MatchString l := by
  unfold dropCR
  split
  · rename_i h
    obtain ⟨l', rfl⟩ : ∃ l', l = l' ++ ['\r'] := by
      rcases List.eq_nil_or_concat l with h0 | ⟨l', a, h1⟩
      · subst h0; simp at h
      · subst h1
        simp at h
        exact ⟨l', by rw [h]; simp⟩
    simp only [List.dropLast_concat]
    unfold diffGitPattern_MatchString
    rw [Bool.eq_iff_iff, List.isPrefixOf_iff_prefix, List.isPrefixOf_iff_prefix]
    constructor
    · intro hp
      exact hp.trans (List.prefix_append _ _)
    · intro hp
      rcases List.prefix_concat_iff.1 hp with h1 | h1
      · have hmem : '\r' ∈ "diff --git".toList := by rw [h1]; simp
        exact absurd hmem (by decide)
      · exact h1
  · rfl

/-- A text starts with `diff --git` exactly when its first line does. -/
theorem firstLine_startsWith (m : List Char) (hm : '\n' ∉ m) :
    ∀ d : List Char, m.isPrefixOf ((textLines d).headD []) = m.isPrefixOf d := by
  induction m with
  | nil => intro d; simp [List.isPrefixOf]
  | cons a m ih =>
    intro d
    have ha : a ≠ '\n' := fun h => hm (by simp [h])
    have hm' : '\n' ∉ m := fun h => hm (by simp [h])
    cases d with
    | nil => simp [textLines]
    | cons c rest =>
      simp only [textLines]
      by_cases hc : c = '\n'
      · subst hc
        simp [List.isPrefixOf, ha]
      · simp only [hc, if_false]
        have := ih hm' rest
        cases hrest : textLines rest with
        | nil =>
          rw [hrest] at this
          simp only [List.headD_nil] at this
          simp [List.isPrefixOf, this]
        | cons l ls =>
          rw [hrest] at this
          simp only [List.headD_cons] at this
          simp [List.isPrefixOf, this]

/-- Once the accumulator holds something, every marker line flushes one chunk and the
accumulator is never empty again. -/
theorem splitDiffLoop_length (lines : List (List Char)) :
    ∀ (chunks : List (List Char)) (cur : List Char), 0 < byteLen cur →
      (splitDiffLoop lines chunks cur).1.length =
          chunks.length + lines.countP diffGitPattern_MatchString ∧
        0 < byteLen (splitDiffLoop lines chunks cur).2 := by
  induction lines with
  | nil => intro chunks cur h; simp [splitDiffLoop, h]
  | cons line rest ih =>
    intro chunks cur h
    simp only [splitDiffLoop]
    by_cases hmatch : diffGitPattern_MatchString line = true
    · have hpos : 0 < byteLen (([] ++ line) ++ ['\n']) := by
        rw [byteLen_pos_iff]; simp
      have := ih (chunks ++ [cur]) (([] ++ line) ++ ['\n']) hpos
      simp only [hmatch, h, gt_iff_lt, decide_True, Bool.and_self, if_true]
      rw [List.countP_cons_of_pos _ _ hmatch]
      simp only [List.length_append, List.length_singleton] at this
      refine ⟨by omega, this.2⟩
    · have hpos : 0 < byteLen ((cur ++ line) ++ ['\n']) := by
        rw [byteLen_pos_iff]; simp
      have := ih chunks ((cur ++ line) ++ ['\n']) hpos
      simp only [hmatch, Bool.false_and, if_false]
      rw [List.countP_cons_of_neg _ _ hmatch]
      exact this

/-- The number of chunks in terms of the scanned lines: one per marker line, and one more
when the first line is not a marker. -/
theorem splitDiff_length_scan (d : List Char) :
    (splitDiff d).length =
      match scanLines d with
      | [] => 0
      | l :: rest =>
        (if diffGitPattern_MatchString l then 0 else 1) +
          (l :: rest).countP diffGitPattern_MatchString := by
  unfold splitDiff
  cases hs : scanLines d with
  | nil => simp [splitDiffLoop, byteLen]
  | cons l rest =>
    simp only [splitDiffLoop, byteLen_nil, gt_iff_lt, lt_self_iff_false, decide_False,
      Bool.and_false, if_false, Bool.false_eq_true]
    have hpos : 0 < byteLen (([] ++ l) ++ ['\n']) := by
      rw [byteLen_pos_iff]; simp
    have := splitDiffLoop_length rest [] (([] ++ l) ++ ['\n']) hpos
    rw [if_pos this.2]
    simp only [List.length_append, List.length_singleton, this.1, List.length_nil]
    by_cases hmatch : diffGitPattern_MatchString l = true
    · rw [List.countP_cons_of_pos _ _ hmatch]; simp [hmatch]
    · rw [List.countP_cons_of_neg _ _ hmatch]; simp [hmatch]; exact Nat.add_comm _ _

theorem scanLines_of_short (d : List Char)
    (hlen : ∀ l ∈ textLines d, byteLen l < MaxScanTokenSize) :
    scanLines d = (textLines d).map dropCR := by
  unfold scanLines
  congr 1
  rw [List.takeWhile_eq_self_iff]
  intro l hl
  simpa using hlen l hl

theorem textLines_line_append (l rest : List Char) (hnl : '\n' ∉ l) :
    textLines (l ++ '\n' :: rest) = l :: textLines rest := by
  induction l with
  | nil => simp [textLines]
  | cons c t ih =>
    have hc : c ≠ '\n' := fun h => hnl (by simp [h])
    have ht : '\n' ∉ t := fun h => hnl (by simp [h])
    have h := ih ht
    simp only [List.cons_append, textLines, hc, if_false]
    show (match textLines (t ++ '\n' :: rest) with
      | [] => [[c]]
      | l :: ls => (c :: l) :: ls) = (c :: t) :: textLines rest
    rw [h]

/-- The scanner's limit at work: when the first line holds `MaxScanTokenSize` bytes or
more, the scan stops before the first token and `splitDiff` returns no chunk at all,
whatever follows. -/
theorem splitDiff_first_line_too_long (l rest : List Char) (hnl : '\n' ∉ l)
    (hlong : MaxScanTokenSize ≤ byteLen l) : splitDiff (l ++ '\n' :: rest) = [] := by
  have hscan : scanLines (l ++ '\n' :: rest) = [] := by
    unfold scanLines
    rw [textLines_line_append l rest hnl]
    have : ¬ (byteLen l < MaxScanTokenSize) := by omega
    simp [List.takeWhile_cons, this]
  unfold splitDiff
  rw [hscan]
  simp [splitDiffLoop, byteLen]

theorem textLines_single (d : List Char) (hne : d ≠ []) (hnl : '\n' ∉ d) :
    textLines d = [d] := by
  induction d with
  | nil => exact absurd rfl hne
  | cons c t ih =>
    have hc : c ≠ '\n' := fun h => hnl (by simp [h])
    have ht : '\n' ∉ t := fun h => hnl (by simp [h])
    simp only [textLines, hc, if_false]
    cases t with
    | nil => simp [textLines]
    | cons b u =>
      have h := ih (by simp) ht
      show (match textLines (b :: u) with
        | [] => [[c]]
        | l :: ls => (c :: l) :: ls) = [c :: b :: u]
      rw [h]

/-- A text either holds no line feed or splits at its first line feed. -/
theorem split_first_line (d : List Char) :
    '\n' ∉ d ∨ ∃ l rest, '\n' ∉ l ∧ d = l ++ '\n' :: rest := by
  induction d with
  | nil => exact Or.inl (by simp)
  | cons c t ih =>
    by_cases hc : c = '\n'
    · exact Or.inr ⟨[], t, by simp, by simp [hc]⟩
    · rcases ih with h | ⟨l, rest, hl, rfl⟩
      · left
        simp only [List.mem_cons, not_or]
        exact ⟨fun h' => hc h'.symm, h⟩
      · right
        refine ⟨c :: l, rest, ?_, by simp⟩
        simp only [List.mem_cons, not_or]
        exact ⟨fun h' => hc h'.symm, hl⟩

theorem dropCR_cases (l : List Char) :
    (l.getLast? ≠ some '\r' ∧ dropCR l = l) ∨ ∃ l', l = l' ++ ['\r'] ∧ dropCR l = l' := by
  by_cases h : l.getLast? = some '\r'
  · right
    rcases List.eq_nil_or_concat l with h0 | ⟨l', a, h1⟩
    · subst h0; simp at h
    · subst h1
      simp at h
      subst h
      exact ⟨l', by simp, by simp [dropCR]⟩
  · exact Or.inl ⟨h, dropCR_eq_self l h⟩

/-- Writing the scanned lines back with a line feed each gives the text back only when the
text is empty or ends with a line feed and none of its lines ends with a carriage return. -/
theorem rewritten_eq_self_only (n : Nat) :
    ∀ d : List Char, d.length ≤ n →
      ((textLines d).map (fun l => dropCR l ++ ['\n'])).flatten = d →
      (d = [] ∨ d.getLast? = some '\n') ∧ ∀ l ∈ textLines d, l.getLast? ≠ some '\r' := by
  induction n with
  | zero =>
    intro d hd _
    have : d = [] := List.eq_nil_of_length_eq_zero (by omega)
    subst this
    simp [textLines]
  | succ n ih =>
    intro d hd heq
    by_cases hnil : d = []
    · subst hnil; simp [textLines]
    rcases split_first_line d with hno | ⟨l, rest, hl, rfl⟩
    · exfalso
      rw [textLines_single d hnil hno] at heq
      simp only [List.map_cons, List.map_nil, List.flatten_cons, List.flatten_nil,
        List.append_nil] at heq
      have : '\n' ∈ d := by rw [← heq]; simp
      exact hno this
    · rw [textLines_line_append l rest hl] at heq ⊢
      simp only [List.map_cons, List.flatten_cons, List.append_assoc, List.singleton_append]
        at heq
      rcases dropCR_cases l with ⟨hcr, hsame⟩ | ⟨l', rfl, hdrop⟩
      · rw [hsame] at heq
        have hrest := List.cons.inj (List.append_cancel_left heq)
        have hlen : rest.length ≤ n := by
          simp only [List.length_append, List.length_cons] at hd
          omega
        have hP := ih rest hlen hrest.2
        refine ⟨Or.inr ?_, ?_⟩
        · by_cases hr : rest = []
          · subst hr; simp
          · rcases hP.1 with h0 | h1
            · exact absurd h0 hr
            · rw [List.getLast?_append_of_ne_nil _ (by simp)]
              cases rest with
              | nil => exact absurd rfl hr
              | cons r rs => rw [List.getLast?_cons_cons]; exact h1
        · intro x hx
          simp only [List.mem_cons] at hx
          rcases hx with rfl | hx
          · exact hcr
          · exact hP.2 x hx
      · exfalso
        rw [hdrop] at heq
        simp only [List.append_assoc, List.singleton_append] at heq
        have := List.cons.inj (List.append_cancel_left heq)
        exact absurd this.1 (by decide)

/-! ## Properties of `splitDiff` -/

/-- C1, as stated, fails: a diff without a final line feed comes back with one added, and
a diff with carriage-return/line-feed endings comes back with line feeds only. -/
theorem C1_splitDiff_concat_counterexample :
    (splitDiff "abc".toList).flatten = "abc\n".toList ∧
      (splitDiff "abc".toList).flatten ≠ "abc".toList ∧
      (splitDiff "a\r\nb\n".toList).flatten = "a\nb\n".toList ∧
      (splitDiff "a\r\nb\n".toList).flatten ≠ "a\r\nb\n".toList := by
  decide

/-- C1, amended: for a diff whose lines are all shorter than the scanner's token limit,
the chunks of `splitDiff`, concatenated in order, are the diff itself if and only if the
diff is empty or ends with a line feed and none of its lines ends with a carriage return. -/
theorem C1_splitDiff_concat (d : List Char)
    (hlen : ∀ l ∈ textLines d, byteLen l < MaxScanTokenSize) :
    (splitDiff d).flatten = d ↔
      (d = [] ∨ d.getLast? = some '\n') ∧ ∀ l ∈ textLines d, l.getLast? ≠ some '\r' := by
  constructor
  · intro h
    rw [splitDiff_flatten, scanLines_of_short d hlen, List.map_map] at h
    exact rewritten_eq_self_only d.length d (Nat.le_refl _) h
  · rintro ⟨hend, hcr⟩
    rw [splitDiff_flatten, scanLines_eq_textLines d hcr hlen, textLines_flatten, if_pos hend]
    simp

/-- C1, amended, at a diff of two files. -/
theorem C1_splitDiff_concat_witness :
    (∀ l ∈ textLines sampleDiff, byteLen l < MaxScanTokenSize) ∧
      (splitDiff sampleDiff).flatten = sampleDiff :=
  ⟨by decide, (C1_splitDiff_concat sampleDiff (by decide)).2 ⟨by decide, by decide⟩⟩

/-- C2, as stated, fails: with one line before the only marker line there is one marker
but `splitDiff` returns two chunks. -/
theorem C2_splitDiff_count_counterexample :
    markerLineCount "index 1\ndiff --git a/x b/x\n+one\n".toList = 1 ∧
      splitDiff "index 1\ndiff --git a/x b/x\n+one\n".toList =
        ["index 1\n".toList, "diff --git a/x b/x\n+one\n".toList] ∧
      (splitDiff "index 1\ndiff --git a/x b/x\n+one\n".toList).length = 2 := by
  decide

/-- C2, amended: for a diff whose lines are all shorter than the scanner's token limit,
with `k` lines starting with `diff --git`, `splitDiff` returns `k` chunks when the diff is
empty or itself starts with `diff --git`, and `k + 1` chunks otherwise (the lines before
the first marker line form a chunk of their own). -/
theorem C2_splitDiff_count (d : List Char)
    (hlen : ∀ l ∈ textLines d, byteLen l < MaxScanTokenSize) :
    (splitDiff d).length =
      if d = [] ∨ diffGitPattern_MatchString d = true then markerLineCount d
      else markerLineCount d + 1 := by
  rw [splitDiff_length_scan, scanLines_of_short d hlen]
  unfold markerLineCount
  have hfirst := firstLine_startsWith "diff --git".toList (by decide) d
  cases ht : textLines d with
  | nil =>
    have hd : d = [] := (textLines_eq_nil_iff d).1 ht
    simp [hd]
  | cons l ls =>
    have hd : d ≠ [] := by
      intro h
      rw [h] at ht
      simp [textLines] at ht
    rw [ht] at hfirst
    simp only [List.headD_cons] at hfirst
    have hl : diffGitPattern_MatchString l = diffGitPattern_MatchString d := hfirst
    have hcomp : (diffGitPattern_MatchString ∘ dropCR) = diffGitPattern_MatchString :=
      funext dropCR_match
    have hcount : List.countP diffGitPattern_MatchString (List.map dropCR (l :: ls)) =
        List.countP diffGitPattern_MatchString (l :: ls) := by
      rw [List.countP_map, hcomp]
    simp only [List.map_cons] at hcount ⊢
    rw [hcount, dropCR_match, hl]
    by_cases hm : diffGitPattern_MatchString d = true
    · simp [hm]
    · simp [hm, hd]
      exact Nat.add_comm _ _

/-- C2, amended, at a diff of two files with one line before the first marker line. -/
theorem C2_splitDiff_count_witness :
    (∀ l ∈ textLines sampleDiffWithPreamble, byteLen l < MaxScanTokenSize) ∧
      (splitDiff sampleDiffWithPreamble).length =
        if sampleDiffWithPreamble = [] ∨
            diffGitPattern_MatchString sampleDiffWithPreamble = true
        then markerLineCount sampleDiffWithPreamble
        else markerLineCount sampleDiffWithPreamble + 1 :=
  ⟨by decide, C2_splitDiff_count sampleDiffWithPreamble (by decide)⟩

/-! ## Lemmas on the parse loop -/

theorem parseLoop_nil (om : Bool) (st : ParseState) : parseLoop om [] st = st := rfl

theorem parseLoop_cons (om : Bool) (l : List Char) (ls : List (List Char)) (st : ParseState) :
    parseLoop om (l :: ls) st = parseLoop om ls (parseStep om st l) := rfl

theorem parseLoop_append (om : Bool) (a b : List (List Char)) (st : ParseState) :
    parseLoop om (a ++ b) st = parseLoop om b (parseLoop om a st) := by
  simp [parseLoop, List.foldl_append]

/-- A step never brings `section` back to `normal`. -/
theorem parseStep_sect_ne_normal (om : Bool) (st : ParseState) (l : List Char)
    (h : st.sect ≠ Section.normal) : (parseStep om st l).sect ≠ Section.normal := by
  unfold parseStep
  split
  · simp
  · split
    · simp
    · split <;> simp_all

theorem parseLoop_sect_ne_normal (om : Bool) (ls : List (List Char)) :
    ∀ st : ParseState, st.sect ≠ Section.normal →
      (parseLoop om ls st).sect ≠ Section.normal := by
  induction ls with
  | nil => intro st h; exact h
  | cons l ls ih =>
    intro st h
    rw [parseLoop_cons]
    exact ih _ (parseStep_sect_ne_normal om st l h)

/-- In `commit`, lines without the start marker leave `section` at `commit`, and the
message builder receives exactly those among them that do not hold the end marker. -/
theorem parseLoop_commit (om : Bool) (ls : List (List Char)) :
    ∀ st : ParseState, st.sect = Section.commit →
      (∀ l ∈ ls, Contains l reasoningStart = false) →
      (parseLoop om ls st).sect = Section.commit ∧
        (parseLoop om ls st).message =
          st.message ++
            ((ls.filter (fun l => !Contains l reasoningEnd)).map
              (fun l => l ++ ['\n'])).flatten := by
  induction ls with
  | nil => intro st h _; simp [parseLoop_nil, h]
  | cons l ls ih =>
    intro st h hls
    have hl : Contains l reasoningStart = false := hls l (by simp)
    have hrest : ∀ x ∈ ls, Contains x reasoningStart = false :=
      fun x hx => hls x (by simp [hx])
    rw [parseLoop_cons]
    by_cases hend : Contains l reasoningEnd = true
    · have hstep : parseStep om st l = { st with sect := Section.commit } := by
        simp [parseStep, hl, hend]
      have := ih (parseStep om st l) (by rw [hstep]) hrest
      refine ⟨this.1, ?_⟩
      rw [this.2, hstep]
      simp [List.filter_cons, hend]
    · have hend' : Contains l reasoningEnd = false := by simpa using hend
      have hstep : parseStep om st l = { st with message := (st.message ++ l) ++ ['\n'] } := by
        simp [parseStep, hl, hend', h]
      have := ih (parseStep om st l) (by rw [hstep]; exact h) hrest
      refine ⟨this.1, ?_⟩
      rw [this.2, hstep]
      simp [List.filter_cons, hend']

/-- While no line is a pure end marker (the end marker without the start marker),
`section` is not `commit` and the message builder stays as it was. -/
theorem parseLoop_no_end (om : Bool) (ls : List (List Char)) :
    ∀ st : ParseState, st.sect ≠ Section.commit →
      (∀ l ∈ ls, Contains l reasoningStart = true ∨
        Contains l reasoningEnd = false) →
      (parseLoop om ls st).sect ≠ Section.commit ∧
        (parseLoop om ls st).message = st.message := by
  induction ls with
  | nil => intro st h _; exact ⟨h, rfl⟩
  | cons l ls ih =>
    intro st h hls
    have hrest : ∀ x ∈ ls, Contains x reasoningStart = true ∨
        Contains x reasoningEnd = false :=
      fun x hx => hls x (by simp [hx])
    rw [parseLoop_cons]
    have hstep : (parseStep om st l).sect ≠ Section.commit ∧
        (parseStep om st l).message = st.message := by
      rcases hls l (by simp) with h1 | h1
      · simp [parseStep, h1]
      · by_cases h2 : Contains l reasoningStart = true
        · simp [parseStep, h2]
        · have h2' : Contains l reasoningStart = false := by simpa using h2
          unfold parseStep
          simp only [h1, h2', Bool.false_eq_true, if_false]
          cases hs : st.sect with
          | normal => simp [hs]
          | reasoning => simp
          | commit => exact absurd hs h
    have := ih (parseStep om st l) hstep.1 hrest
    exact ⟨this.1, this.2.trans hstep.2⟩

theorem TrimSpace_nil : TrimSpace [] = [] := rfl

/-! ## Properties of the parse loop -/

/-- C3, as stated, fails: a line holding `<reasoning>` after the end-marker line is not
part of the message and sends the lines after it to the reasoning text. -/
theorem C3_message_counterexample :
    parsedMessage false
        ["<reasoning>".toList, "why".toList, "</reasoning>".toList, "fix: a".toList,
          "<reasoning>".toList, "more".toList] = "fix: a".toList ∧
      parsedMessage false
        ["<reasoning>".toList, "why".toList, "</reasoning>".toList, "fix: a".toList,
          "<reasoning>".toList, "more".toList] ≠
        TrimSpace ((["fix: a".toList, "<reasoning>".toList, "more".toList].map
          (fun l => l ++ ['\n'])).flatten) := by
  decide

/-- C3, amended: let `e` be the first line that holds `</reasoning>` and not `<reasoning>`.
When no line after `e` holds `<reasoning>`, the message returned by the parse loop is the
white-space-trimmed text of the lines after `e` that do not hold `</reasoning>`, each
followed by a line feed. -/
theorem C3_message_after_end (onlyMessage : Bool) (pre post : List (List Char))
    (e : List Char)
    (hpre : ∀ l ∈ pre, Contains l reasoningStart = true ∨ Contains l reasoningEnd = false)
    (hstart : Contains e reasoningStart = false) (hend : Contains e reasoningEnd = true)
    (hpost : ∀ l ∈ post, Contains l reasoningStart = false) :
    parsedMessage onlyMessage (pre ++ e :: post) =
      TrimSpace (((post.filter (fun l => !Contains l reasoningEnd)).map
        (fun l => l ++ ['\n'])).flatten) := by
  unfold parsedMessage
  rw [parseLoop_append, parseLoop_cons]
  have h1 := parseLoop_no_end onlyMessage pre ParseState.init (by simp [ParseState.init]) hpre
  have hstep : parseStep onlyMessage (parseLoop onlyMessage pre ParseState.init) e =
      { parseLoop onlyMessage pre ParseState.init with sect := Section.commit } := by
    simp [parseStep, hstart, hend]
  have h2 := parseLoop_commit onlyMessage post
    (parseStep onlyMessage (parseLoop onlyMessage pre ParseState.init) e)
    (by rw [hstep]) hpost
  rw [h2.2, hstep]
  simp only [h1.2]
  simp [ParseState.init]

/-- C3, amended, at a reasoning block followed by a message of three lines. -/
theorem C3_message_after_end_witness :
    (∀ l ∈ ["<reasoning>".toList, "why".toList],
        Contains l reasoningStart = true ∨ Contains l reasoningEnd = false) ∧
      parsedMessage false
        (["<reasoning>".toList, "why".toList] ++ "</reasoning>".toList ::
          ["fix: a".toList, "".toList, "body".toList]) =
        TrimSpace (((["fix: a".toList, "".toList, "body".toList].filter
          (fun l => !Contains l reasoningEnd)).map (fun l => l ++ ['\n'])).flatten) :=
  ⟨by decide,
    C3_message_after_end false ["<reasoning>".toList, "why".toList]
      ["fix: a".toList, "".toList, "body".toList] "</reasoning>".toList
      (by decide) (by decide) (by decide) (by decide)⟩

/-- C4, as stated, fails: a line holding `</reasoning>` takes `section` from `normal`
straight to `commit`, and a line holding `<reasoning>` takes it from `commit` back to
`reasoning`. -/
theorem C4_section_counterexample :
    sectionTrace false ["</reasoning>".toList] = [Section.normal, Section.commit] ∧
      sectionTrace false ["<reasoning>".toList, "</reasoning>".toList, "<reasoning>".toList] =
        [Section.normal, Section.reasoning, Section.commit, Section.reasoning] := by
  decide

/-- What one line does to `section`, after any lines read before it: a line holding
`<reasoning>` sets it to `reasoning`, a line holding `</reasoning>` and not `<reasoning>`
sets it to `commit`, any other line leaves it as it was. -/
theorem sectionAfter_line (om : Bool) (pre : List (List Char)) (line : List Char) :
    sectionAfter om (pre ++ [line]) =
      if Contains line reasoningStart then Section.reasoning
      else if Contains line reasoningEnd then Section.commit
      else sectionAfter om pre := by
  unfold sectionAfter
  rw [parseLoop_append, parseLoop_cons, parseLoop_nil]
  generalize parseLoop om pre ParseState.init = st
  cases h1 : Contains line reasoningStart <;> cases h2 : Contains line reasoningEnd <;>
    cases hs : st.sect <;> simp [parseStep, h1, h2, hs]

/-- C4, amended: over any lines `pre` followed by any lines `post`, `section` never
returns to `normal` once it has left it; once `commit`, it stays `commit` as long as no
later line holds `<reasoning>`; and it does not become `commit` as long as no later line
holds `</reasoning>` without `<reasoning>`. After any lines `pre`, from whatever phase they
have led to, a line holding `<reasoning>` sets `section` to `reasoning` (also from
`commit`), a line holding `</reasoning>` and not `<reasoning>` sets it to `commit` (also
from `normal`), and a line holding neither marker leaves it unchanged. -/
theorem C4_section_transitions (onlyMessage : Bool) (pre post : List (List Char)) :
    (sectionAfter onlyMessage pre ≠ Section.normal →
        sectionAfter onlyMessage (pre ++ post) ≠ Section.normal) ∧
      (sectionAfter onlyMessage pre = Section.commit →
        (∀ l ∈ post, Contains l reasoningStart = false) →
        sectionAfter onlyMessage (pre ++ post) = Section.commit) ∧
      (sectionAfter onlyMessage pre ≠ Section.commit →
        (∀ l ∈ post, Contains l reasoningStart = true ∨ Contains l reasoningEnd = false) →
        sectionAfter onlyMessage (pre ++ post) ≠ Section.commit) ∧
      (∀ line : List Char, Contains line reasoningStart = true →
        sectionAfter onlyMessage (pre ++ [line]) = Section.reasoning) ∧
      (∀ line : List Char, Contains line reasoningStart = false →
        Contains line reasoningEnd = true →
        sectionAfter onlyMessage (pre ++ [line]) = Section.commit) ∧
      (∀ line : List Char, Contains line reasoningStart = false →
        Contains line reasoningEnd = false →
        sectionAfter onlyMessage (pre ++ [line]) = sectionAfter onlyMessage pre) := by
  refine ⟨?_, ?_, ?_, ?_, ?_, ?_⟩
  · intro h
    unfold sectionAfter at h ⊢
    rw [parseLoop_append]
    exact parseLoop_sect_ne_normal onlyMessage post _ h
  · intro h hpost
    unfold sectionAfter at h ⊢
    rw [parseLoop_append]
    exact (parseLoop_commit onlyMessage post _ h hpost).1
  · intro h hpost
    unfold sectionAfter at h ⊢
    rw [parseLoop_append]
    exact (parseLoop_no_end onlyMessage post _ h hpost).1
  · intro line h1
    rw [sectionAfter_line, if_pos h1]
  · intro line h1 h2
    rw [sectionAfter_line, if_neg (by simp [h1]), if_pos h2]
  · intro line h1 h2
    rw [sectionAfter_line, if_neg (by simp [h1]), if_neg (by simp [h2])]

/-- C4, amended, at a stream that has reached `commit` and at one still in `reasoning`;
then a `<reasoning>` line read in `commit` and a `</reasoning>` line read in `normal`. -/
theorem C4_section_transitions_witness :
    sectionAfter false (["<reasoning>".toList, "</reasoning>".toList] ++ ["fix".toList]) ≠
        Section.normal ∧
      sectionAfter false (["<reasoning>".toList, "</reasoning>".toList] ++ ["fix".toList]) =
        Section.commit ∧
      sectionAfter false (["intro".toList] ++ ["<reasoning>".toList, "why".toList]) ≠
        Section.commit ∧
      sectionAfter false (["<reasoning>".toList, "</reasoning>".toList] ++
        ["<reasoning>".toList]) = Section.reasoning ∧
      sectionAfter false (["intro".toList] ++ ["</reasoning>".toList]) = Section.commit ∧
      sectionAfter false (["<reasoning>".toList] ++ ["why".toList]) =
        sectionAfter false ["<reasoning>".toList] :=
  ⟨(C4_section_transitions false ["<reasoning>".toList, "</reasoning>".toList]
      ["fix".toList]).1 (by decide),
    (C4_section_transitions false ["<reasoning>".toList, "</reasoning>".toList]
      ["fix".toList]).2.1 (by decide) (by decide),
    (C4_section_transitions false ["intro".toList]
      ["<reasoning>".toList, "why".toList]).2.2.1 (by decide) (by decide),
    (C4_section_transitions false ["<reasoning>".toList, "</reasoning>".toList]
      []).2.2.2.1 "<reasoning>".toList (by decide),
    (C4_section_transitions false ["intro".toList] []).2.2.2.2.1 "</reasoning>".toList
      (by decide) (by decide),
    (C4_section_transitions false ["<reasoning>".toList] []).2.2.2.2.2 "why".toList
      (by decide) (by decide)⟩

/-- C7: when no line holds `</reasoning>`, the message returned by the parse loop is the
empty string, whatever the lines hold. -/
theorem C7_no_end_marker (onlyMessage : Bool) (lines : List (List Char))
    (h : ∀ l ∈ lines, Contains l reasoningEnd = false) :
    parsedMessage onlyMessage lines = [] := by
  unfold parsedMessage
  have := parseLoop_no_end onlyMessage lines ParseState.init (by simp [ParseState.init])
    (fun l hl => Or.inr (h l hl))
  rw [this.2]
  rfl

/-- C7 at a stream whose reasoning block is never closed. -/
theorem C7_no_end_marker_witness :
    (∀ l ∈ ["<reasoning>".toList, "thinking".toList, "fix: x".toList],
        Contains l reasoningEnd = false) ∧
      parsedMessage false ["<reasoning>".toList, "thinking".toList, "fix: x".toList] = [] :=
  ⟨by decide,
    C7_no_end_marker false ["<reasoning>".toList, "thinking".toList, "fix: x".toList]
      (by decide)⟩

/-! ## Lemmas on `getFinalCommitMessage` and the retry loop -/

/-- On a started subprocess, `getFinalCommitMessage` returns the message of the parse loop
over the scanned lines of its output. -/
theorem getFinalCommitMessage_message (finalInput : List Char) (om : Bool) (w : World)
    (stdout : List Char) (h : w.ollama 0 = PipeResult.output stdout) :
    (getFinalCommitMessage finalInput om w).message = parsedMessage om (scanLines stdout) := by
  simp [getFinalCommitMessage, runOllama, h, parsedMessage]

/-- The same for `processChunk`. -/
theorem processChunk_message (chunk : List Char) (om : Bool) (w : World)
    (stdout : List Char) (h : w.ollama 0 = PipeResult.output stdout) :
    (processChunk chunk om w).message = parsedMessage om (scanLines stdout) := by
  simp [processChunk, runOllama, h, parsedMessage]

theorem getFinalCommitMessage_message_eq (finalInput : List Char) (om : Bool) (w : World) :
    (getFinalCommitMessage finalInput om w).message = attemptMessage om w 0 := by
  unfold attemptMessage getFinalCommitMessage runOllama
  simp only [Nat.add_zero]

theorem attemptMessage_next (finalInput : List Char) (om : Bool) (w : World) (j : Nat) :
    attemptMessage om (getFinalCommitMessage finalInput om w).world j =
      attemptMessage om w (j + 1) := by
  have hw : (getFinalCommitMessage finalInput om w).world =
      { w with ollama := fun n => w.ollama (n + 1) } := by
    unfold getFinalCommitMessage runOllama
    cases w.ollama 0 <;> rfl
  rw [hw]
  unfold attemptMessage getFinalCommitMessage runOllama
  simp only [Nat.add_assoc, Nat.add_comm 1 j]
  simp only [Nat.zero_add]
  cases w.ollama (j + 1) <;> rfl

theorem getFinalCommitMessage_stdin (finalInput : List Char) (om : Bool) (w : World) :
    (getFinalCommitMessage finalInput om w).world.stdin = w.stdin := by
  unfold getFinalCommitMessage runOllama
  cases w.ollama 0 <;> rfl

/-- A call of `getFinalCommitMessage` records itself once and nothing else that counts as
an attempt. -/
theorem getFinalCommitMessage_attempts (finalInput : List Char) (om : Bool) (w : World) :
    (getFinalCommitMessage finalInput om w).events.countP isAttempt = 1 := by
  unfold getFinalCommitMessage runOllama
  cases w.ollama 0 with
  | pipeError err => simp [isAttempt]
  | startError err => simp [isAttempt]
  | output stdout =>
    simp only [List.countP_cons_of_pos, isAttempt]
    rw [List.countP_eq_zero.2]
    intro e he
    simp only [List.mem_map] at he
    obtain ⟨l, _, rfl⟩ := he
    simp [isAttempt]

/-- With a non-empty message the loop condition is false: the loop ends at once. -/
theorem retryLoop_of_message (finalInput : List Char) (flags : Flags) (maxRetries fuel : Nat)
    (msg : List Char) (retryCount : Nat) (w : World) (h : msg ≠ []) :
    retryLoop finalInput flags maxRetries (fuel + 1) msg retryCount w =
      ([], LoopExit.done msg, w) := by
  simp [retryLoop, h]

/-- The retry loop from `retryCount = c` with an empty message: if the attempts before
number `p` are empty and attempt `p` is not, or is the one that reaches `maxRetries`, the
loop makes `min (maxRetries - c) (p + 1)` attempts; it ends in `done` with the message of
attempt `p` in the first case and in `exhausted` in the second. -/
theorem retryLoop_attempts (finalInput : List Char) (flags : Flags) (maxRetries : Nat) :
    ∀ (p fuel c : Nat) (w : World), c < maxRetries → maxRetries - c + 1 ≤ fuel →
      (∀ j < p, attemptMessage flags.OnlyMessage w j = []) →
      (attemptMessage flags.OnlyMessage w p ≠ [] ∨ maxRetries ≤ c + p + 1) →
      ((retryLoop finalInput flags maxRetries fuel [] c w).1.countP isAttempt =
          min (maxRetries - c) (p + 1)) ∧
        ((retryLoop finalInput flags maxRetries fuel [] c w).2.1 =
          if maxRetries ≤ c + p + 1 ∧ attemptMessage flags.OnlyMessage w (maxRetries - c - 1) = []
          then LoopExit.exhausted
          else LoopExit.done (attemptMessage flags.OnlyMessage w p)) := by
  intro p
  induction p with
  | zero =>
    intro fuel c w hc hfuel _ hstop
    obtain ⟨fuel, rfl⟩ : ∃ f, fuel = f + 1 := ⟨fuel - 1, by omega⟩
    have hmsg := getFinalCommitMessage_message_eq finalInput flags.OnlyMessage w
    by_cases h0 : attemptMessage flags.OnlyMessage w 0 = []
    · have hmax : maxRetries ≤ c + 1 := by
        rcases hstop with h | h
        · exact absurd h0 h
        · omega
      have hidx : maxRetries - c - 1 = 0 := by omega
      have hnot : ¬ (c + 1 < maxRetries) := by omega
      simp only [retryLoop, hc, and_self, if_true, hmsg, h0, hnot, if_false, hidx, true_and]
      refine ⟨?_, by simp [hmax]⟩
      rw [getFinalCommitMessage_attempts]
      omega
    · obtain ⟨fuel, rfl⟩ : ∃ f, fuel = f + 1 := ⟨fuel - 1, by omega⟩
      have hrec := retryLoop_of_message finalInput flags maxRetries fuel
        (attemptMessage flags.OnlyMessage w 0) c
        (getFinalCommitMessage finalInput flags.OnlyMessage w).world h0
      rw [retryLoop]
      simp only [hc, and_self, if_true, hmsg, h0, if_false, hrec, List.append_nil]
      refine ⟨?_, ?_⟩
      · rw [getFinalCommitMessage_attempts]; omega
      · by_cases hm : maxRetries ≤ c + 0 + 1
        · have hidx : maxRetries - c - 1 = 0 := by omega
          simp [hidx, h0]
        · simp [hm]
  | succ p ih =>
    intro fuel c w hc hfuel hempty hstop
    obtain ⟨fuel, rfl⟩ : ∃ f, fuel = f + 1 := ⟨fuel - 1, by omega⟩
    have hmsg := getFinalCommitMessage_message_eq finalInput flags.OnlyMessage w
    have h0 : attemptMessage flags.OnlyMessage w 0 = [] := hempty 0 (by omega)
    by_cases hnext : c + 1 < maxRetries
    · have hrec := ih fuel (c + 1)
        (getFinalCommitMessage finalInput flags.OnlyMessage w).world hnext (by omega)
        (fun j hj => by rw [attemptMessage_next]; exact hempty (j + 1) (by omega))
        (by rw [attemptMessage_next]; rcases hstop with h | h
            · exact Or.inl h
            · exact Or.inr (by omega))
      rw [retryLoop]
      simp only [hc, and_self, if_true, hmsg, h0, hnext]
      refine ⟨?_, ?_⟩
      · simp only [List.countP_append, getFinalCommitMessage_attempts, hrec.1]
        have hv : List.countP isAttempt
            (if flags.Verbose = true then
              [Println "\x1b[1;31m❌ Failed to generate a commit message. Retrying...\x1b[0m".toList]
             else []) = 0 := by
          split <;> simp [Println, isAttempt]
        have hs : List.countP isAttempt [Event.sleep 1] = 0 := by simp [isAttempt]
        rw [hv, hs]
        omega
      · rw [hrec.2]
        simp only [attemptMessage_next]
        have e1 : maxRetries - (c + 1) - 1 + 1 = maxRetries - c - 1 := by omega
        have e2 : c + 1 + p + 1 = c + (p + 1) + 1 := by omega
        rw [e1, e2]
    · have hidx : maxRetries - c - 1 = 0 := by omega
      rw [retryLoop]
      simp only [hc, and_self, if_true, hmsg, h0, hnext, if_false, hidx]
      refine ⟨?_, ?_⟩
      · rw [getFinalCommitMessage_attempts]; omega
      · have : maxRetries ≤ c + (p + 1) + 1 := by omega
        simp [this]


/-! ## The number of attempts of the retry loop -/

/-- C5: in one run of the retry loop of `generateAndProcessFinalMessage` (ten retries at
most, from `retryCount = 0` and an empty message), when `i` is the position, counted from
1, of the first non-empty message among those the successive attempts return, or `i` is 10
and the first ten are all empty, the loop calls `getFinalCommitMessage` exactly
`min 10 i` times, and it ends (it does not run out of fuel). -/
theorem C5_retry_attempts (finalInput : List Char) (flags : Flags) (w : World) (i : Nat)
    (hi : 1 ≤ i)
    (hempty : ∀ j, j + 1 < i → attemptMessage flags.OnlyMessage w j = [])
    (hfirst : attemptMessage flags.OnlyMessage w (i - 1) ≠ [] ∨ 10 ≤ i) :
    (retryLoop finalInput flags 10 (10 + 1) [] 0 w).1.countP isAttempt = min 10 i ∧
      (retryLoop finalInput flags 10 (10 + 1) [] 0 w).2.1 ≠ LoopExit.outOfFuel := by
  obtain ⟨p, rfl⟩ : ∃ p, i = p + 1 := ⟨i - 1, by omega⟩
  have h := retryLoop_attempts finalInput flags 10 p (10 + 1) 0 w (by omega) (by omega)
    (fun j hj => hempty j (by omega))
    (by rcases hfirst with h | h
        · exact Or.inl (by simpa using h)
        · exact Or.inr (by omega))
  refine ⟨by simpa using h.1, ?_⟩
  rw [h.2]
  split <;> simp

/-- C5 at a world whose third attempt is the first with a message: three calls. -/
theorem C5_retry_attempts_witness :
    (retryLoop [] ⟨false, false, false, false⟩ 10 (10 + 1) [] 0 worldThirdAttempt).1.countP
        isAttempt = min 10 3 ∧
      (retryLoop [] ⟨false, false, false, false⟩ 10 (10 + 1) [] 0 worldThirdAttempt).2.1 ≠
        LoopExit.outOfFuel :=
  C5_retry_attempts [] ⟨false, false, false, false⟩ worldThirdAttempt 3 (by decide)
    (by
      intro j hj
      have hj2 : j = 0 ∨ j = 1 := by omega
      rcases hj2 with rfl | rfl <;> decide)
    (Or.inl (by decide))

/-! ## Lemmas on the interaction controller -/

theorem keepsExclusion_of_quiet (ign : List Char) (e : Event)
    (h1 : isControllerCall e = false) (h2 : isGitCommit e = false) :
    keepsExclusion ign e = true := by
  cases e <;> simp_all [keepsExclusion, isControllerCall, isGitCommit]

theorem getFinalCommitMessage_quiet (finalInput : List Char) (om : Bool) (w : World) :
    ∀ e ∈ (getFinalCommitMessage finalInput om w).events,
      isControllerCall e = false ∧ isGitCommit e = false := by
  unfold getFinalCommitMessage runOllama
  cases w.ollama 0 with
  | pipeError err => simp [isControllerCall, isGitCommit]
  | startError err => simp [isControllerCall, isGitCommit]
  | output stdout =>
    intro e he
    simp only [List.mem_cons, List.mem_map] at he
    rcases he with rfl | ⟨l, _, rfl⟩ <;> simp [isControllerCall, isGitCommit]

/-- The retry loop calls neither the controller nor `git commit`. -/
theorem retryLoop_quiet (finalInput : List Char) (flags : Flags) (maxRetries : Nat) :
    ∀ (fuel : Nat) (msg : List Char) (c : Nat) (w : World),
      ∀ e ∈ (retryLoop finalInput flags maxRetries fuel msg c w).1,
        isControllerCall e = false ∧ isGitCommit e = false := by
  intro fuel
  induction fuel with
  | zero => intro msg c w e he; simp [retryLoop] at he
  | succ fuel ih =>
    intro msg c w e he
    rw [retryLoop] at he
    by_cases h1 : msg = [] ∧ c < maxRetries
    · simp only [h1, and_self, if_true] at he
      by_cases h2 : (getFinalCommitMessage finalInput flags.OnlyMessage w).message = []
      · simp only [h2, if_true] at he
        by_cases h3 : c + 1 < maxRetries
        · simp only [h3, if_true, List.mem_append] at he
          rcases he with ((he | he) | he) | he
          · exact getFinalCommitMessage_quiet _ _ _ e he
          · by_cases hv : flags.Verbose = true
            · simp only [hv, if_true, List.mem_singleton] at he
              subst he
              simp [Println, isControllerCall, isGitCommit]
            · simp [hv] at he
          · simp only [List.mem_singleton] at he
            subst he
            simp [isControllerCall, isGitCommit]
          · exact ih _ _ _ e he
        · simp only [h3, if_false] at he
          exact getFinalCommitMessage_quiet _ _ _ e he
      · simp only [h2, if_false, List.mem_append] at he
        rcases he with he | he
        · exact getFinalCommitMessage_quiet _ _ _ e he
        · exact ih _ _ _ e he
    · simp [h1] at he

/-- The events of `displayOptions`: its own call, then prints. -/
theorem displayOptions_events (ign : List Char) (w : World) :
    ∀ e ∈ (displayOptions ign w).1, e = Event.displayOptions ign ∨ ∃ t, e = Event.print t := by
  intro e he
  unfold displayOptions at he
  simp only [List.mem_append, List.mem_cons, List.mem_singleton, List.not_mem_nil,
    or_false] at he
  rcases he with ((((h | h) | h) | h) | h) | h
  · rcases h with h | h
    · exact Or.inl h
    · exact Or.inr ⟨_, h⟩
  all_goals first
    | exact Or.inr ⟨_, h⟩
    | (split at h
       · simp only [List.mem_singleton] at h; exact Or.inr ⟨_, h⟩
       · simp at h)

theorem displayOptions_keeps (ign : List Char) (w : World) :
    ∀ e ∈ (displayOptions ign w).1, keepsExclusion ign e = true := by
  intro e he
  rcases displayOptions_events ign w e he with rfl | ⟨t, rfl⟩ <;> simp [keepsExclusion]

theorem verbosePanel_quiet (a b : List Char) :
    ∀ e ∈ verbosePanel a b, isControllerCall e = false ∧ isGitCommit e = false := by
  intro e he
  simp only [verbosePanel, List.mem_cons, List.mem_singleton, List.not_mem_nil, or_false] at he
  rcases he with rfl | rfl | rfl | rfl | rfl | rfl <;>
    simp [Println, isControllerCall, isGitCommit]

theorem proposedPanel_quiet (a : List Char) :
    ∀ e ∈ proposedPanel a, isControllerCall e = false ∧ isGitCommit e = false := by
  intro e he
  simp only [proposedPanel, List.mem_append, List.mem_cons, List.mem_singleton,
    List.not_mem_nil, or_false, List.mem_map] at he
  rcases he with (rfl | rfl | rfl) | ⟨l, _, rfl⟩ <;>
    simp [Println, isControllerCall, isGitCommit]

theorem contains_ce_c : Contains "c, e".toList "c".toList = true := by decide

theorem contains_ce_e : Contains "c, e".toList "e".toList = true := by decide

theorem contains_ce_g : Contains "c, e".toList "g".toList = false := by decide

theorem contains_ce_d : Contains "c, e".toList "d".toList = false := by decide

/-- A choice `c`, `e` or `g` whose letter occurs in `ignoreOption` is rejected: the error
line, then `os.Exit(1)`. -/
theorem processChoice_excluded (fuel : Nat) (choice msg : List Char) (flags : Flags)
    (ign micro ctx : List Char) (w : World)
    (hletter : choice = "c".toList ∨ choice = "e".toList ∨ choice = "g".toList)
    (hex : Contains ign choice = true) :
    processChoice (fuel + 1) choice msg flags ign micro ctx w =
      { events := [Event.processChoice choice ign, invalidOption, Event.exit 1],
        status := Status.exited 1 } := by
  rcases hletter with rfl | rfl | rfl
  · rw [processChoice]
    simp only [hex, Bool.not_true, Bool.false_eq_true, if_true, if_false]
  · rw [processChoice]
    have h1 : ¬ ("e".toList = "c".toList) := by decide
    simp only [hex, h1, Bool.not_true, Bool.false_eq_true, if_true, if_false]
  · rw [processChoice]
    have h1 : ¬ ("g".toList = "c".toList) := by decide
    have h2 : ¬ ("g".toList = "e".toList) := by decide
    simp only [hex, h1, h2, Bool.not_true, Bool.false_eq_true, if_true, if_false]

/-- A choice that is none of `c`, `e`, `g`, `d` gets the error line and the function
returns. -/
theorem processChoice_other (fuel : Nat) (choice msg : List Char) (flags : Flags)
    (ign micro ctx : List Char) (w : World)
    (hc : choice ≠ "c".toList) (he : choice ≠ "e".toList) (hg : choice ≠ "g".toList)
    (hd : choice ≠ "d".toList) :
    processChoice (fuel + 1) choice msg flags ign micro ctx w =
      { events := [Event.processChoice choice ign, invalidOption],
        status := Status.returned } := by
  rw [processChoice]
  simp only [hc, he, hg, hd, if_false]

/-- The choice `d` discards, whatever `ignoreOption` holds. -/
theorem processChoice_discard (fuel : Nat) (msg : List Char) (flags : Flags)
    (ign micro ctx : List Char) (w : World) :
    processChoice (fuel + 1) "d".toList msg flags ign micro ctx w =
      { events := [Event.processChoice "d".toList ign,
          Println "\x1b[1;31m❌ Commit discarded.\x1b[0m".toList],
        status := Status.returned } := by
  rw [processChoice]
  have h1 : ¬ ("d".toList = "c".toList) := by decide
  have h2 : ¬ ("d".toList = "e".toList) := by decide
  have h3 : ¬ ("d".toList = "g".toList) := by decide
  simp only [h1, h2, h3, if_true, if_false]

/-- The choice `g`, when not excluded, asks for a new context and generates again with the
same `ignoreOption`. -/
theorem processChoice_regenerate (fuel : Nat) (msg : List Char) (flags : Flags)
    (ign micro ctx : List Char) (w : World) (hex : Contains ign "g".toList = false) :
    processChoice (fuel + 1) "g".toList msg flags ign micro ctx w =
      { events :=
          [Event.processChoice "g".toList ign,
            Println "\x1b[1;33mGenerating again with some context...\x1b[0m".toList] ++
            (requestContext w).1 ++
            (generateAndProcessFinalMessage fuel micro (requestContext w).2.1 flags ign
              (requestContext w).2.2).events,
        status := (generateAndProcessFinalMessage fuel micro (requestContext w).2.1 flags ign
          (requestContext w).2.2).status } := by
  rw [processChoice]
  have h1 : ¬ ("g".toList = "c".toList) := by decide
  have h2 : ¬ ("g".toList = "e".toList) := by decide
  simp only [hex, h1, h2, Bool.not_false, if_true, if_false]

/-- With the exclusion string `"c, e"`, every call of the controller made by
`generateAndProcessFinalMessage` or `processChoice`, however deep, carries `"c, e"`, and
`git commit` is never run. -/
theorem exclusion_kept (fuel : Nat) :
    (∀ (micro ctx : List Char) (flags : Flags) (w : World),
        ∀ e ∈ (generateAndProcessFinalMessage fuel micro ctx flags "c, e".toList w).events,
          keepsExclusion "c, e".toList e = true) ∧
      (∀ (choice msg : List Char) (flags : Flags) (micro ctx : List Char) (w : World),
        ∀ e ∈ (processChoice fuel choice msg flags "c, e".toList micro ctx w).events,
          keepsExclusion "c, e".toList e = true) := by
  induction fuel with
  | zero =>
    constructor
    · intro micro ctx flags w e he
      simp [generateAndProcessFinalMessage] at he
    · intro choice msg flags micro ctx w e he
      simp [processChoice] at he
  | succ fuel ih =>
    have quiet := fun (e : Event) (h : isControllerCall e = false ∧ isGitCommit e = false) =>
      keepsExclusion_of_quiet "c, e".toList e h.1 h.2
    constructor
    · intro micro ctx flags w e he
      rw [generateAndProcessFinalMessage] at he
      have hhead : ∀ x, (x ∈ (if flags.Verbose = true then
            [Println "\x1b[1;36mFinal Input to Ollama:\x1b[0m".toList,
              Println (finalInputOf micro ctx)]
          else [] : List Event) ∨ x = Println []) →
          keepsExclusion "c, e".toList x = true := by
        intro x hx
        rcases hx with hx | rfl
        · split at hx
          · simp only [List.mem_cons, List.mem_singleton, List.not_mem_nil, or_false] at hx
            rcases hx with rfl | rfl <;> simp [Println, keepsExclusion]
          · simp at hx
        · simp [Println, keepsExclusion]
      have hloop := retryLoop_quiet (finalInputOf micro ctx) flags 10 (10 + 1) [] 0 w
      simp only at he
      split at he
      · simp only [List.mem_append, List.mem_singleton] at he
        rcases he with he | he
        · exact hhead e he
        · exact quiet e (hloop e he)
      · simp only [List.mem_append, List.mem_singleton] at he
        rcases he with (((he | he) | he) | he) | he
        · exact hhead e he
        · exact quiet e (hloop e he)
        · subst he; simp [Println, keepsExclusion]
        · exact displayOptions_keeps _ _ e he
        · exact ih.2 _ _ _ _ _ _ e he
      · split at he
        · simp only [List.mem_append, List.mem_singleton] at he
          rcases he with ((he | he) | he) | he
          · exact hhead e he
          · exact quiet e (hloop e he)
          · split at he
            · exact quiet e (verbosePanel_quiet _ _ e he)
            · simp at he
          · subst he; simp [Println, keepsExclusion]
        · simp only [List.mem_append, List.mem_singleton] at he
          rcases he with ((((he | he) | he) | he) | he) | he
          · exact hhead e he
          · exact quiet e (hloop e he)
          · split at he
            · exact quiet e (verbosePanel_quiet _ _ e he)
            · simp at he
          · exact quiet e (proposedPanel_quiet _ e he)
          · exact displayOptions_keeps _ _ e he
          · exact ih.2 _ _ _ _ _ _ e he
    · intro choice msg flags micro ctx w e he
      by_cases hc : choice = "c".toList
      · rw [processChoice_excluded fuel choice msg flags _ micro ctx w (Or.inl hc)
          (by rw [hc]; exact contains_ce_c)] at he
        simp only [List.mem_cons, List.mem_singleton, List.not_mem_nil, or_false] at he
        rcases he with rfl | rfl | rfl <;> simp [invalidOption, Println, keepsExclusion]
      · by_cases hce : choice = "e".toList
        · rw [processChoice_excluded fuel choice msg flags _ micro ctx w (Or.inr (Or.inl hce))
            (by rw [hce]; exact contains_ce_e)] at he
          simp only [List.mem_cons, List.mem_singleton, List.not_mem_nil, or_false] at he
          rcases he with rfl | rfl | rfl <;> simp [invalidOption, Println, keepsExclusion]
        · by_cases hg : choice = "g".toList
          · rw [hg, processChoice_regenerate fuel msg flags _ micro ctx w contains_ce_g] at he
            simp only at he
            rw [List.mem_append, List.mem_append] at he
            rcases he with (he | he) | he
            · simp only [List.mem_cons, List.mem_singleton, List.not_mem_nil, or_false] at he
              rcases he with rfl | rfl <;> simp [Println, keepsExclusion]
            · simp only [requestContext, List.mem_singleton] at he
              subst he
              simp [Println, keepsExclusion]
            · exact ih.1 _ _ _ _ e he
          · by_cases hd : choice = "d".toList
            · rw [hd, processChoice_discard] at he
              simp only [List.mem_cons, List.mem_singleton, List.not_mem_nil, or_false] at he
              rcases he with rfl | rfl <;> simp [Println, keepsExclusion]
            · rw [processChoice_other fuel choice msg flags _ micro ctx w hc hce hg hd] at he
              simp only [List.mem_cons, List.mem_singleton, List.not_mem_nil, or_false] at he
              rcases he with rfl | rfl <;> simp [invalidOption, Println, keepsExclusion]

/-- When the first ten attempts all return an empty message, the loop ends in its
`exhausted` branch. -/
theorem retryLoop_exhausted (finalInput : List Char) (flags : Flags) (w : World)
    (h : ∀ j < 10, attemptMessage flags.OnlyMessage w j = []) :
    (retryLoop finalInput flags 10 (10 + 1) [] 0 w).2.1 = LoopExit.exhausted := by
  have := (retryLoop_attempts finalInput flags 10 9 (10 + 1) 0 w (by omega) (by omega)
    (fun j hj => h j (by omega)) (Or.inr (by omega))).2
  rw [this, if_pos]
  exact ⟨by omega, h 9 (by omega)⟩

/-- When one of the first ten attempts returns a non-empty message, the loop ends with
the first such message. -/
theorem retryLoop_done (finalInput : List Char) (flags : Flags) (w : World) (p : Nat)
    (hp : p < 10) (hempty : ∀ j < p, attemptMessage flags.OnlyMessage w j = [])
    (hmsg : attemptMessage flags.OnlyMessage w p ≠ []) :
    (retryLoop finalInput flags 10 (10 + 1) [] 0 w).2.1 =
      LoopExit.done (attemptMessage flags.OnlyMessage w p) := by
  have := (retryLoop_attempts finalInput flags 10 p (10 + 1) 0 w (by omega) (by omega)
    hempty (Or.inl hmsg)).2
  rw [this, if_neg]
  rintro ⟨h1, h2⟩
  have hp9 : p = 9 := by omega
  subst hp9
  exact hmsg h2

/-- What `generateAndProcessFinalMessage` does when the ten attempts are exhausted: the
failure line, then the controller with the exclusion string `"c, e"` and an empty message,
whatever `ignoreOption` it was called with. -/
theorem generate_exhausted (fuel : Nat) (micro ctx : List Char) (flags : Flags)
    (base : List Char) (w : World)
    (h : ∀ j < 10, attemptMessage flags.OnlyMessage w j = []) :
    generateAndProcessFinalMessage (fuel + 1) micro ctx flags base w =
      { events :=
          (if flags.Verbose then
            [Println "\x1b[1;36mFinal Input to Ollama:\x1b[0m".toList,
              Println (finalInputOf micro ctx)]
           else []) ++ [Println []] ++
          (retryLoop (finalInputOf micro ctx) flags 10 (10 + 1) [] 0 w).1 ++
          [Println "\x1b[1;31m❌ Failed to generate a commit message.\x1b[0m".toList] ++
          (displayOptions "c, e".toList
            (retryLoop (finalInputOf micro ctx) flags 10 (10 + 1) [] 0 w).2.2).1 ++
          (processChoice fuel
            (displayOptions "c, e".toList
              (retryLoop (finalInputOf micro ctx) flags 10 (10 + 1) [] 0 w).2.2).2.1
            [] flags "c, e".toList micro ctx
            (displayOptions "c, e".toList
              (retryLoop (finalInputOf micro ctx) flags 10 (10 + 1) [] 0 w).2.2).2.2).events,
        status :=
          (processChoice fuel
            (displayOptions "c, e".toList
              (retryLoop (finalInputOf micro ctx) flags 10 (10 + 1) [] 0 w).2.2).2.1
            [] flags "c, e".toList micro ctx
            (displayOptions "c, e".toList
              (retryLoop (finalInputOf micro ctx) flags 10 (10 + 1) [] 0 w).2.2).2.2).status } := by
  rw [generateAndProcessFinalMessage]
  simp only [retryLoop_exhausted (finalInputOf micro ctx) flags w h]

/-- In message-only mode, when one of the first ten attempts returns a non-empty message,
`generateAndProcessFinalMessage` prints that message last and returns without calling the
controller. -/
theorem generate_only_message_done (fuel : Nat) (micro ctx : List Char) (flags : Flags)
    (base : List Char) (w : World) (p : Nat) (hom : flags.OnlyMessage = true)
    (hp : p < 10) (hempty : ∀ j < p, attemptMessage flags.OnlyMessage w j = [])
    (hmsg : attemptMessage flags.OnlyMessage w p ≠ []) :
    (generateAndProcessFinalMessage (fuel + 1) micro ctx flags base w).status =
        Status.returned ∧
      (generateAndProcessFinalMessage (fuel + 1) micro ctx flags base w).events.getLast? =
        some (Println (attemptMessage flags.OnlyMessage w p)) ∧
      ∀ e ∈ (generateAndProcessFinalMessage (fuel + 1) micro ctx flags base w).events,
        isControllerCall e = false := by
  rw [generateAndProcessFinalMessage]
  simp only [retryLoop_done (finalInputOf micro ctx) flags w p hp hempty hmsg, hom, if_true]
  refine ⟨trivial, ?_, ?_⟩
  · exact List.getLast?_concat _
  intro e he
  simp only [List.mem_append, List.mem_singleton] at he
  rcases he with (((he | he) | he) | he) | he
  · split at he
    · simp only [List.mem_cons, List.mem_singleton, List.not_mem_nil, or_false] at he
      rcases he with rfl | rfl <;> simp [Println, isControllerCall]
    · simp at he
  · subst he; simp [Println, isControllerCall]
  · exact (retryLoop_quiet _ _ _ _ _ _ _ e he).1
  · split at he
    · exact (verbosePanel_quiet _ _ e he).1
    · simp at he
  · subst he; simp [Println, isControllerCall]

/-! ## The model never runs out of fuel -/

/-- With `maxRetries - retryCount + 1` units of fuel the retry loop reaches one of its two
exits. -/
theorem retryLoop_total (finalInput : List Char) (flags : Flags) (maxRetries : Nat) :
    ∀ (fuel : Nat) (msg : List Char) (c : Nat) (w : World), maxRetries - c + 1 ≤ fuel →
      (retryLoop finalInput flags maxRetries fuel msg c w).2.1 ≠ LoopExit.outOfFuel := by
  intro fuel
  induction fuel with
  | zero => intro msg c w h; omega
  | succ fuel ih =>
    intro msg c w h
    rw [retryLoop]
    by_cases h1 : msg = [] ∧ c < maxRetries
    · simp only [h1, and_self, if_true]
      by_cases h2 : (getFinalCommitMessage finalInput flags.OnlyMessage w).message = []
      · simp only [h2, if_true]
        by_cases h3 : c + 1 < maxRetries
        · simp only [h3, if_true]
          exact ih _ _ _ (by omega)
        · simp [h3]
      · simp only [h2, if_false]
        obtain ⟨f, rfl⟩ : ∃ f, fuel = f + 1 := ⟨fuel - 1, by omega⟩
        rw [retryLoop_of_message _ _ _ _ _ _ _ h2]
        simp
    · simp [h1]

/-- The retry loop reads nothing from standard input. -/
theorem retryLoop_stdin (finalInput : List Char) (flags : Flags) (maxRetries : Nat) :
    ∀ (fuel : Nat) (msg : List Char) (c : Nat) (w : World),
      (retryLoop finalInput flags maxRetries fuel msg c w).2.2.stdin = w.stdin := by
  intro fuel
  induction fuel with
  | zero => intro msg c w; rfl
  | succ fuel ih =>
    intro msg c w
    rw [retryLoop]
    by_cases h1 : msg = [] ∧ c < maxRetries
    · simp only [h1, and_self, if_true]
      by_cases h2 : (getFinalCommitMessage finalInput flags.OnlyMessage w).message = []
      · simp only [h2, if_true]
        by_cases h3 : c + 1 < maxRetries
        · simp only [h3, if_true]
          rw [ih, getFinalCommitMessage_stdin]
        · simp only [h3, if_false]
          exact getFinalCommitMessage_stdin _ _ _
      · simp only [h2, if_false]
        rw [ih, getFinalCommitMessage_stdin]
    · simp [h1]

theorem displayOptions_choice_of_eof (ign : List Char) (w : World) (h : w.stdin = []) :
    (displayOptions ign w).2.1 = [] ∧ (displayOptions ign w).2.2.stdin = [] := by
  simp [displayOptions, readString, h, TrimSpace_nil]

theorem displayOptions_stdin_of_cons (ign : List Char) (w : World) (x : List Char)
    (rest : List (List Char)) (h : w.stdin = x :: rest) :
    (displayOptions ign w).2.2.stdin = rest := by
  simp [displayOptions, readString, h]

theorem requestContext_stdin_length (w : World) :
    (requestContext w).2.2.stdin.length ≤ w.stdin.length := by
  unfold requestContext readString
  cases h : w.stdin with
  | nil => simp [h]
  | cons x rest => simp

/-- Fuel above twice the number of lines left on standard input is enough: the run ends by
a return or by `os.Exit`, never by lack of fuel. -/
theorem run_total (fuel : Nat) :
    (∀ (micro ctx : List Char) (flags : Flags) (ign : List Char) (w : World),
        2 * w.stdin.length + 2 ≤ fuel →
        (generateAndProcessFinalMessage fuel micro ctx flags ign w).status ≠
          Status.outOfFuel) ∧
      (∀ (choice msg : List Char) (flags : Flags) (ign micro ctx : List Char) (w : World),
        (2 * w.stdin.length + 3 ≤ fuel ∨ (1 ≤ fuel ∧ w.stdin = [] ∧ choice = [])) →
        (processChoice fuel choice msg flags ign micro ctx w).status ≠ Status.outOfFuel) := by
  induction fuel with
  | zero =>
    constructor
    · intro micro ctx flags ign w h; omega
    · intro choice msg flags ign micro ctx w h
      rcases h with h | h <;> omega
  | succ fuel ih =>
    have after : ∀ (ign2 msg2 : List Char) (flags : Flags) (micro ctx : List Char)
        (w2 : World), 2 * w2.stdin.length + 2 ≤ fuel + 1 →
        (processChoice fuel (displayOptions ign2 w2).2.1 msg2 flags ign2 micro ctx
          (displayOptions ign2 w2).2.2).status ≠ Status.outOfFuel := by
      intro ign2 msg2 flags micro ctx w2 hw
      apply ih.2
      cases hs : w2.stdin with
      | nil =>
        have := displayOptions_choice_of_eof ign2 w2 hs
        exact Or.inr ⟨by omega, this.2, this.1⟩
      | cons x rest =>
        rw [displayOptions_stdin_of_cons ign2 w2 x rest hs]
        rw [hs] at hw
        simp only [List.length_cons] at hw
        exact Or.inl (by omega)
    constructor
    · intro micro ctx flags ign w h
      rw [generateAndProcessFinalMessage]
      have hloop := retryLoop_total (finalInputOf micro ctx) flags 10 (10 + 1) [] 0 w
        (by omega)
      have hstdin := retryLoop_stdin (finalInputOf micro ctx) flags 10 (10 + 1) [] 0 w
      simp only
      split
      · rename_i heq
        exact absurd heq hloop
      · exact after _ _ _ _ _ _ (by rw [hstdin]; exact h)
      · split
        · simp
        · exact after _ _ _ _ _ _ (by rw [hstdin]; exact h)
    · intro choice msg flags ign micro ctx w h
      by_cases hc : choice = "c".toList
      · subst hc
        have hA : 2 * w.stdin.length + 3 ≤ fuel + 1 := by
          rcases h with h | ⟨_, _, h3⟩
          · exact h
          · exact absurd h3 (by decide)
        rw [processChoice]
        simp only [if_true]
        split
        · split
          · simp
          · exact after _ _ _ _ _ _ (by simp only; omega)
        · simp
      · by_cases he : choice = "e".toList
        · subst he
          have hA : 2 * w.stdin.length + 3 ≤ fuel + 1 := by
            rcases h with h | ⟨_, _, h3⟩
            · exact h
            · exact absurd h3 (by decide)
          rw [processChoice]
          simp only [hc, if_true, if_false]
          split
          · split
            · simp
            · simp
            · simp
            · simp
            · exact after _ _ _ _ _ _ (by simp only; omega)
          · simp
        · by_cases hg : choice = "g".toList
          · subst hg
            have hA : 2 * w.stdin.length + 3 ≤ fuel + 1 := by
              rcases h with h | ⟨_, _, h3⟩
              · exact h
              · exact absurd h3 (by decide)
            by_cases hex : Contains ign "g".toList = true
            · rw [processChoice_excluded fuel _ msg flags ign micro ctx w
                (Or.inr (Or.inr rfl)) hex]
              simp
            · rw [processChoice_regenerate fuel msg flags ign micro ctx w (by simpa using hex)]
              simp only
              apply ih.1
              have := requestContext_stdin_length w
              omega
          · by_cases hd : choice = "d".toList
            · rw [hd, processChoice_discard]
              simp
            · rw [processChoice_other fuel choice msg flags ign micro ctx w hc he hg hd]
              simp

/-- After exhaustion, whatever `ignoreOption` was passed, every controller call of the rest
of the run carries `"c, e"` and `git commit` is never run. -/
theorem generate_exhausted_keeps (fuel : Nat) (micro ctx : List Char) (flags : Flags)
    (base : List Char) (w : World)
    (h : ∀ j < 10, attemptMessage flags.OnlyMessage w j = []) :
    ∀ e ∈ (generateAndProcessFinalMessage fuel micro ctx flags base w).events,
      keepsExclusion "c, e".toList e = true := by
  cases fuel with
  | zero => intro e he; simp [generateAndProcessFinalMessage] at he
  | succ fuel =>
    intro e he
    rw [generate_exhausted fuel micro ctx flags base w h] at he
    simp only [List.mem_append, List.mem_singleton] at he
    rcases he with ((((he | he) | he) | he) | he) | he
    · split at he
      · simp only [List.mem_cons, List.mem_singleton, List.not_mem_nil, or_false] at he
        rcases he with rfl | rfl <;> simp [Println, keepsExclusion]
      · simp at he
    · subst he; simp [Println, keepsExclusion]
    · have := retryLoop_quiet _ _ _ _ _ _ _ e he
      exact keepsExclusion_of_quiet _ e this.1 this.2
    · subst he; simp [Println, keepsExclusion]
    · exact displayOptions_keeps _ _ e he
    · exact (exclusion_kept fuel).2 _ _ _ _ _ _ e he

theorem displayOptions_head (ign : List Char) (w : World) :
    ∃ rest, (displayOptions ign w).1 = Event.displayOptions ign :: rest := by
  unfold displayOptions
  exact ⟨_, rfl⟩

/-! ## Properties of the interaction controller -/

/-- C6, as stated, fails: with an empty base exclusion, after ten empty attempts the
controller is entered with `"c, e"`; the line of option `(e)` is not shown, and the choice
`e` is rejected with the error line and exit status 1 instead of opening the editor. -/
theorem C6_exhausted_exclusion_counterexample :
    Event.displayOptions "c, e".toList ∈
        (generateAndProcessFinalMessage 2 [] [] flagsInteractive [] worldSilentEdit).events ∧
      Println "  \x1b[1m(e)\x1b[0m Edit this message".toList ∉
        (generateAndProcessFinalMessage 2 [] [] flagsInteractive [] worldSilentEdit).events ∧
      Event.processChoice "e".toList "c, e".toList ∈
        (generateAndProcessFinalMessage 2 [] [] flagsInteractive [] worldSilentEdit).events ∧
      (generateAndProcessFinalMessage 2 [] [] flagsInteractive [] worldSilentEdit).events.getLast? =
        some (Event.exit 1) ∧
      (generateAndProcessFinalMessage 2 [] [] flagsInteractive [] worldSilentEdit).status =
        Status.exited 1 := by
  decide

/-- C6, amended: when the first ten attempts all return an empty message, the controller
is entered with the exclusion string `"c, e"` whatever base exclusion was passed: the run
is the same as with base `"c, e"`, its first controller call is `displayOptions("c, e")`,
every controller call carries `"c, e"`, the menu shows the options `(g)` and `(d)` only,
and the choices `c` and `e` are rejected. -/
theorem C6_exhausted_exclusion (fuel : Nat) (micro ctx : List Char) (flags : Flags)
    (base : List Char) (w : World)
    (h : ∀ j < 10, attemptMessage flags.OnlyMessage w j = []) :
    generateAndProcessFinalMessage (fuel + 1) micro ctx flags base w =
        generateAndProcessFinalMessage (fuel + 1) micro ctx flags "c, e".toList w ∧
      ((generateAndProcessFinalMessage (fuel + 1) micro ctx flags base w).events.filter
        isControllerCall).head? = some (Event.displayOptions "c, e".toList) ∧
      (∀ ign, Event.displayOptions ign ∈
          (generateAndProcessFinalMessage (fuel + 1) micro ctx flags base w).events →
        ign = "c, e".toList) ∧
      (∀ choice ign, Event.processChoice choice ign ∈
          (generateAndProcessFinalMessage (fuel + 1) micro ctx flags base w).events →
        ign = "c, e".toList) ∧
      (∀ w1 : World, (displayOptions "c, e".toList w1).1 =
        [Event.displayOptions "c, e".toList, Println "\n\x1b[1;34mOptions:\x1b[0m".toList,
          Println "  \x1b[1m(g)\x1b[0m Generate again with some context".toList,
          Println "  \x1b[1m(d)\x1b[0m Discard".toList,
          Event.print "\x1b[1;33mChoose: \x1b[0m".toList]) ∧
      (∀ (fuel1 : Nat) (choice msg : List Char) (w1 : World),
        choice = "c".toList ∨ choice = "e".toList →
        processChoice (fuel1 + 1) choice msg flags "c, e".toList micro ctx w1 =
          { events := [Event.processChoice choice "c, e".toList, invalidOption, Event.exit 1],
            status := Status.exited 1 }) := by
  have hkeep := generate_exhausted_keeps (fuel + 1) micro ctx flags base w h
  refine ⟨?_, ?_, ?_, ?_, ?_, ?_⟩
  · rw [generate_exhausted fuel micro ctx flags base w h,
      generate_exhausted fuel micro ctx flags "c, e".toList w h]
  · rw [generate_exhausted fuel micro ctx flags base w h]
    obtain ⟨rest, hrest⟩ := displayOptions_head "c, e".toList
      (retryLoop (finalInputOf micro ctx) flags 10 (10 + 1) [] 0 w).2.2
    simp only [hrest, List.filter_append]
    have h1 : List.filter isControllerCall
        (if flags.Verbose = true then
          [Println "\x1b[1;36mFinal Input to Ollama:\x1b[0m".toList,
            Println (finalInputOf micro ctx)]
         else []) = [] := by
      split <;> simp [Println, isControllerCall]
    have h2 : List.filter isControllerCall [Println []] = [] := by
      simp [Println, isControllerCall]
    have h3 : List.filter isControllerCall
        (retryLoop (finalInputOf micro ctx) flags 10 (10 + 1) [] 0 w).1 = [] := by
      rw [List.filter_eq_nil_iff]
      intro e he
      simp [(retryLoop_quiet _ _ _ _ _ _ _ e he).1]
    have h4 : List.filter isControllerCall
        [Println "\x1b[1;31m❌ Failed to generate a commit message.\x1b[0m".toList] = [] := by
      simp [Println, isControllerCall]
    rw [h1, h2, h3, h4]
    simp [List.filter_cons, isControllerCall]
  · intro ign hmem
    have := hkeep _ hmem
    simpa [keepsExclusion] using this
  · intro choice ign hmem
    have := hkeep _ hmem
    simpa [keepsExclusion] using this
  · intro w1
    unfold displayOptions
    simp only [contains_ce_c, contains_ce_e, contains_ce_g, contains_ce_d]
    rfl
  · intro fuel1 choice msg w1 hch
    rcases hch with rfl | rfl
    · exact processChoice_excluded fuel1 _ msg flags _ micro ctx w1 (Or.inl rfl) contains_ce_c
    · exact processChoice_excluded fuel1 _ msg flags _ micro ctx w1 (Or.inr (Or.inl rfl))
        contains_ce_e

/-- C6, amended, at a silent `ollama` with base exclusion `"g"`. -/
theorem C6_exhausted_exclusion_witness :
    (∀ j < 10, attemptMessage flagsInteractive.OnlyMessage worldSilentEdit j = []) ∧
      ((generateAndProcessFinalMessage (1 + 1) [] [] flagsInteractive "g".toList
        worldSilentEdit).events.filter isControllerCall).head? =
        some (Event.displayOptions "c, e".toList) :=
  ⟨fun _ _ => rfl,
    (C6_exhausted_exclusion 1 [] [] flagsInteractive "g".toList worldSilentEdit
      (fun _ _ => rfl)).2.1⟩

/-- C8, as stated, fails: the excluded choice `c` ends the process with exit status 1, not
with the success status that a discard ends with. -/
theorem C8_rejected_choice_counterexample :
    processChoice 1 "c".toList "fix".toList flagsInteractive "c".toList [] [] worldSilent =
        { events := [Event.processChoice "c".toList "c".toList, invalidOption, Event.exit 1],
          status := Status.exited 1 } ∧
      exitStatus (processChoice 1 "c".toList "fix".toList flagsInteractive "c".toList [] []
        worldSilent).status = some 1 ∧
      exitStatus (processChoice 1 "d".toList "fix".toList flagsInteractive "c".toList [] []
        worldSilent).status = some 0 := by
  decide

/-- C8, amended: a choice that is none of the letters `c`, `e`, `g`, `d` gets the error
line `Invalid option. Aborting.`, `processChoice` returns and the process ends with the
success status 0; a choice `c`, `e` or `g` whose letter occurs in the exclusion string gets
the same error line and the process ends at once with exit status 1. -/
theorem C8_rejected_choice (fuel : Nat) (choice msg : List Char) (flags : Flags)
    (ign micro ctx : List Char) (w : World)
    (h : (choice ≠ "c".toList ∧ choice ≠ "e".toList ∧ choice ≠ "g".toList ∧
          choice ≠ "d".toList) ∨
        ((choice = "c".toList ∨ choice = "e".toList ∨ choice = "g".toList) ∧
          Contains ign choice = true)) :
    processChoice (fuel + 1) choice msg flags ign micro ctx w =
        (if choice = "c".toList ∨ choice = "e".toList ∨ choice = "g".toList then
          { events := [Event.processChoice choice ign, invalidOption, Event.exit 1],
            status := Status.exited 1 }
        else
          { events := [Event.processChoice choice ign, invalidOption],
            status := Status.returned }) ∧
      exitStatus (processChoice (fuel + 1) choice msg flags ign micro ctx w).status =
        some (if choice = "c".toList ∨ choice = "e".toList ∨ choice = "g".toList then 1
          else 0) := by
  rcases h with ⟨hc, he, hg, hd⟩ | ⟨hletter, hex⟩
  · have hno : ¬ (choice = "c".toList ∨ choice = "e".toList ∨ choice = "g".toList) := by
      rintro (h | h | h)
      · exact hc h
      · exact he h
      · exact hg h
    rw [processChoice_other fuel choice msg flags ign micro ctx w hc he hg hd]
    rw [if_neg hno, if_neg hno]
    exact ⟨rfl, rfl⟩
  · rw [processChoice_excluded fuel choice msg flags ign micro ctx w hletter hex]
    rw [if_pos hletter, if_pos hletter]
    exact ⟨rfl, rfl⟩

/-- C8, amended, at the unknown choice `x`. -/
theorem C8_rejected_choice_witness :
    ((("x".toList ≠ "c".toList ∧ "x".toList ≠ "e".toList ∧ "x".toList ≠ "g".toList ∧
          "x".toList ≠ "d".toList) ∨
        (("x".toList = "c".toList ∨ "x".toList = "e".toList ∨ "x".toList = "g".toList) ∧
          Contains "c".toList "x".toList = true))) ∧
      exitStatus (processChoice (0 + 1) "x".toList "fix".toList flagsInteractive "c".toList
        [] [] worldSilent).status =
        some (if "x".toList = "c".toList ∨ "x".toList = "e".toList ∨ "x".toList = "g".toList
          then 1 else 0) :=
  ⟨by decide,
    (C8_rejected_choice 0 "x".toList "fix".toList flagsInteractive "c".toList [] []
      worldSilent (by decide)).2⟩

/-- C9 at its failing input: in message-only mode (`ignoreOption = "c"` as `main` passes
it), when the ten attempts all return an empty message,
`generateAndProcessFinalMessage` calls `displayOptions` and `processChoice`. -/
theorem C9_only_message_exhausted :
    Event.displayOptions "c, e".toList ∈
        (generateAndProcessFinalMessage 2 [] [] flagsOnlyMessage
          (mainIgnoreOption flagsOnlyMessage) worldSilent).events ∧
      Event.processChoice [] "c, e".toList ∈
        (generateAndProcessFinalMessage 2 [] [] flagsOnlyMessage
          (mainIgnoreOption flagsOnlyMessage) worldSilent).events ∧
      ((generateAndProcessFinalMessage 2 [] [] flagsOnlyMessage
        (mainIgnoreOption flagsOnlyMessage) worldSilent).events.filter
          isControllerCall).length = 2 := by
  decide

/-- C10: once the ten attempts of a generation run are exhausted, in the rest of that run
(for every later input of the user and every later outcome of the collaborators, new
generations included) every call of `displayOptions` and of `processChoice` carries the
exclusion string `"c, e"`, `git commit` is never run, and the choices `c` and `e` are
rejected with the error line and `os.Exit(1)`. -/
theorem C10_exclusion_carried (fuel : Nat) (micro ctx : List Char) (flags : Flags)
    (base : List Char) (w : World)
    (h : ∀ j < 10, attemptMessage flags.OnlyMessage w j = []) :
    (∀ ign, Event.displayOptions ign ∈
          (generateAndProcessFinalMessage fuel micro ctx flags base w).events →
        ign = "c, e".toList) ∧
      (∀ choice ign, Event.processChoice choice ign ∈
          (generateAndProcessFinalMessage fuel micro ctx flags base w).events →
        ign = "c, e".toList) ∧
      (∀ msg, Event.gitCommit msg ∉
          (generateAndProcessFinalMessage fuel micro ctx flags base w).events) ∧
      (∀ (fuel1 : Nat) (choice msg micro1 ctx1 : List Char) (w1 : World),
        choice = "c".toList ∨ choice = "e".toList →
        processChoice (fuel1 + 1) choice msg flags "c, e".toList micro1 ctx1 w1 =
          { events := [Event.processChoice choice "c, e".toList, invalidOption, Event.exit 1],
            status := Status.exited 1 }) := by
  have hkeep := generate_exhausted_keeps fuel micro ctx flags base w h
  refine ⟨?_, ?_, ?_, ?_⟩
  · intro ign hmem
    simpa [keepsExclusion] using hkeep _ hmem
  · intro choice ign hmem
    simpa [keepsExclusion] using hkeep _ hmem
  · intro msg hmem
    simpa [keepsExclusion] using hkeep _ hmem
  · intro fuel1 choice msg micro1 ctx1 w1 hch
    rcases hch with rfl | rfl
    · exact processChoice_excluded fuel1 _ msg flags _ micro1 ctx1 w1 (Or.inl rfl)
        contains_ce_c
    · exact processChoice_excluded fuel1 _ msg flags _ micro1 ctx1 w1 (Or.inr (Or.inl rfl))
        contains_ce_e

/-- The first ten attempts of `worldRegenerate` are empty. -/
theorem worldRegenerate_exhausted :
    ∀ j < 10, attemptMessage flagsInteractive.OnlyMessage worldRegenerate j = [] := by
  intro j hj
  interval_cases j <;> rfl

/-- C10 at a run that is exhausted, generates again with success and is then asked to
commit: the choice `c` is rejected and `git commit` is not run. -/
theorem C10_exclusion_carried_witness :
    (∀ j < 10, attemptMessage flagsInteractive.OnlyMessage worldRegenerate j = []) ∧
      (∀ msg, Event.gitCommit msg ∉
        (generateAndProcessFinalMessage 6 [] [] flagsInteractive [] worldRegenerate).events) ∧
      Event.processChoice "c".toList "c, e".toList ∈
        (generateAndProcessFinalMessage 6 [] [] flagsInteractive [] worldRegenerate).events ∧
      (generateAndProcessFinalMessage 6 [] [] flagsInteractive [] worldRegenerate).status =
        Status.exited 1 :=
  ⟨worldRegenerate_exhausted,
    (C10_exclusion_carried 6 [] [] flagsInteractive [] worldRegenerate
      worldRegenerate_exhausted).2.2.1,
    by decide, by decide⟩

end GitCommitGenerator
